import Mathlib

/-!
Verification of the regdoc-ai document change-detection pipeline.

Shallow embedding of the backend sources:
  - backend/diff_utils.py  (split_into_sections, diff_paragraphs,
    detect_paragraph_section_changes, and the difflib.SequenceMatcher
    machinery they rely on),
  - backend/app.py         (flatten_changes, change_streamer, analyze),
  - backend/llm_client.py  (correct_change_type).

Python strings are modelled as Lean `String` (lists of characters); texts
use the newline character as line separator.  Python dicts that preserve
insertion order are modelled as association lists.
-/

namespace RegDoc

/-! ### Python string primitives -/

/-- Characters treated as whitespace by Python `str.strip` (ASCII range). -/
def pyIsSpace (c : Char) : Bool :=
  c = ' ' || c = '\t' || c = '\n' || c = '\r' || c = '\x0b' || c = '\x0c'

/-- Python `str.strip` on a character list. -/
def pyStripL (cs : List Char) : List Char :=
  ((cs.dropWhile pyIsSpace).reverse.dropWhile pyIsSpace).reverse

/-- Python `str.rstrip` on a character list. -/
def pyRStripL (cs : List Char) : List Char :=
  (cs.reverse.dropWhile pyIsSpace).reverse

/-- Python `str.strip`. -/
def pyStripS (s : String) : String :=
  String.mk (pyStripL s.data)

/-- Python `str.rstrip`. -/
def pyRStripS (s : String) : String :=
  String.mk (pyRStripL s.data)

/-- Split a character list at newline characters (the parts do not contain
the separator; `n` newlines give `n+1` parts). -/
def splitNL : List Char → List (List Char)
  | [] => [[]]
  | c :: cs =>
    match splitNL cs with
    | [] => [[c]]
    | h :: t => if c = '\n' then [] :: h :: t else (c :: h) :: t

/-- Python `str.splitlines` restricted to newline-separated text with no
trailing newline (the only shape fed to it by `split_into_sections`, which
strips the text first). -/
def pySplitlines (s : String) : List String :=
  if s.data = [] then [] else (splitNL s.data).map String.mk

/-- Python `"\n".join`. -/
def joinNL : List String → String
  | [] => ""
  | [l] => l
  | l :: rest => l ++ "\n" ++ joinNL rest

/-! ### The section-header pattern of diff_utils.py

The source matches each line against the regular expression
`^(\d+(?:\.\d+)*)(?:\s+|$)`.  The match succeeds exactly when the maximal
prefix of the form digits('.'digits)* is followed by whitespace or the end
of the line (shrinking any greedy component of the pattern leaves the
follow position at a digit or a dot, which fails the tail), so the match is
embedded as that deterministic test.  The returned remainder models
`line[m.end():].strip()`; since `\s+` only swallows whitespace that
`strip` would also remove, taking everything after the captured key and
stripping it is equivalent. -/

def isDigitChar (c : Char) : Bool :=
  '0' ≤ c && c ≤ '9'

/-- Consume the maximal key prefix `digits('.'digits)*`: digits are
consumed; a dot is consumed only when a digit follows.  Returns the
consumed key (reversed onto `acc`) and the rest of the line. -/
def keyScan : List Char → List Char → List Char × List Char
  | acc, [] => (acc, [])
  | acc, c :: rest =>
    if isDigitChar c then keyScan (c :: acc) rest
    else if c = '.' then
      match rest with
      | [] => (acc, [c])
      | d :: _ =>
        if isDigitChar d then keyScan (c :: acc) rest else (acc, c :: rest)
    else (acc, c :: rest)

/-- Match a line against the section-header pattern; on success return the
captured key and the stripped remainder of the line. -/
def matchHeader (line : String) : Option (String × String) :=
  match line.data with
  | [] => none
  | c :: _ =>
    if isDigitChar c then
      let (accRev, rest) := keyScan [] line.data
      match rest with
      | [] => some (String.mk accRev.reverse, "")
      | c2 :: _ =>
        if pyIsSpace c2 then some (String.mk accRev.reverse, String.mk (pyStripL rest))
        else none
    else none

/-! ### split_into_sections -/

/-- Ordered mapping from section names to paragraph lists (a Python dict
preserving insertion order). -/
abbrev SectionMap := List (String × List String)

/-- The `sections.setdefault(current_sec, []).append(para)` operation:
append a paragraph to the entry of `key`, creating the entry at the end of
the mapping when absent. -/
def alAppend (m : SectionMap) (key : String) (para : String) : SectionMap :=
  match m with
  | [] => [(key, [para])]
  | p :: rest =>
    if p.1 = key then (p.1, p.2 ++ [para]) :: rest else p :: alAppend rest key para

/-- The `sections.setdefault(current_sec, [])` operation: create an empty
entry at the end of the mapping when `key` is absent. -/
def alEnsure (m : SectionMap) (key : String) : SectionMap :=
  match m with
  | [] => [(key, [])]
  | p :: rest =>
    if p.1 = key then p :: rest else p :: alEnsure rest key

/-- Lookup with default `[]`. -/
def alGetD (m : SectionMap) (key : String) : List String :=
  match m with
  | [] => []
  | p :: rest => if p.1 = key then p.2 else alGetD rest key

/-- Scanner state of `split_into_sections`: the mapping built so far, the
current section name, and the buffered lines of the paragraph in
progress. -/
structure SState where
  sections : SectionMap
  cur : String
  buf : List String
deriving Repr

/-- The inner `flush_buffer()` helper: join the buffered lines, strip, and
append to the current section when non-empty. -/
def flushBuf (st : SState) : SState :=
  let para := pyStripS (joinNL st.buf)
  { sections := if para = "" then st.sections else alAppend st.sections st.cur para
    cur := st.cur
    buf := [] }

/-- Process one (already right-stripped) line of the scan. -/
def procLine (st : SState) (line : String) : SState :=
  match matchHeader line with
  | some (key, rest) =>
    let st := flushBuf st
    { sections := alEnsure st.sections key
      cur := key
      buf := if rest = "" then [] else [rest] }
  | none =>
    if pyStripS line = "" then flushBuf st
    else { st with buf := st.buf ++ [line] }

/-- The line-level scan of `split_into_sections` (initial current section
is the default name `"0"`), including the final flush. -/
def splitSectionsLines (lines : List String) : SectionMap :=
  (flushBuf (lines.foldl procLine ⟨[], "0", []⟩)).sections

/-- `split_into_sections` from diff_utils.py. -/
def split_into_sections (text : String) : SectionMap :=
  splitSectionsLines ((pySplitlines (pyStripS text)).map pyRStripS)

/-! ### difflib.SequenceMatcher (autojunk disabled, no junk predicate)

The source calls `SequenceMatcher(a=old_paras, b=new_paras, autojunk=False)`
and reads `get_opcodes()`.  The relevant difflib internals —
`find_longest_match`, `get_matching_blocks` and `get_opcodes` — are
embedded below.  Since no junk is configured, the junk extension loops of
`find_longest_match` are no-ops and are omitted. -/

/-- The `b2j` table of SequenceMatcher: for an element value, the
ascending list of its indices in `b`. -/
def b2j (b : List String) (x : String) : List Nat :=
  (List.range b.length).filter (fun j => b.getD j "" == x)

/-- The running best match of `find_longest_match`. -/
structure FlmBest where
  besti : Nat
  bestj : Nat
  bestsize : Nat
deriving Repr, DecidableEq

/-- One step of the inner loop of `find_longest_match` at row `i`:
`k = newj2len[j] = j2len.get(j-1, 0) + 1` (reading the previous row `J`;
the absent key `-1` for `j = 0` yields the default 0), updating the best
triple when `k > bestsize`.  The indices `i-k+1` and `j-k+1` are written
with truncated subtraction; the invariants `k ≤ i+1` and `k ≤ j+1` hold
throughout, so the values agree with Python. -/
def innerStep (i : Nat) (J : Nat → Nat) (st : (Nat → Nat) × FlmBest) (j : Nat) :
    (Nat → Nat) × FlmBest :=
  let k := (if j = 0 then 0 else J (j - 1)) + 1
  (fun j2 => if j2 = j then k else st.1 j2,
   if st.2.bestsize < k then ⟨i + 1 - k, j + 1 - k, k⟩ else st.2)

/-- One row of the outer loop of `find_longest_match`: iterate over
`b2j.get(a[i], [])`, skipping `j < blo` and stopping at `j ≥ bhi` (the
list being ascending, this equals filtering to the window), building the
new row table from scratch while reading the previous one. -/
def rowStep (a b : List String) (blo bhi : Nat) (st : (Nat → Nat) × FlmBest) (i : Nat) :
    (Nat → Nat) × FlmBest :=
  let js := (b2j b (a.getD i "")).filter (fun j => decide (blo ≤ j) && decide (j < bhi))
  js.foldl (innerStep i st.1) (fun _ => 0, st.2)

/-- The main loop of `find_longest_match` over rows `alo ≤ i < ahi`. -/
def flmCore (a b : List String) (alo ahi blo bhi : Nat) : FlmBest :=
  ((List.range' alo (ahi - alo)).foldl (rowStep a b blo bhi)
    (fun _ => 0, ⟨alo, blo, 0⟩)).2

/-- The leftward extension loop of `find_longest_match`:
`while besti > alo and bestj > blo and a[besti-1] == b[bestj-1]`.
The first argument counts remaining iterations; each pass decrements
`besti`, so any count of at least `besti` lets the loop run to its
guard-driven stop and the count never cuts it short. -/
def extendLeftF (a b : List String) (alo blo : Nat) : Nat → FlmBest → FlmBest
  | 0, m => m
  | fuel + 1, m =>
    if alo < m.besti ∧ blo < m.bestj ∧
        a.getD (m.besti - 1) "" = b.getD (m.bestj - 1) "" then
      extendLeftF a b alo blo fuel ⟨m.besti - 1, m.bestj - 1, m.bestsize + 1⟩
    else m

/-- The leftward extension loop, run to completion. -/
def extendLeft (a b : List String) (alo blo : Nat) (m : FlmBest) : FlmBest :=
  extendLeftF a b alo blo m.besti m

/-- The rightward extension loop of `find_longest_match`:
`while besti+bestsize < ahi and bestj+bestsize < bhi and a[...] == b[...]`.
Each pass increments `bestsize`, so any iteration count of at least
`ahi - (besti + bestsize)` lets the loop run to its guard-driven stop. -/
def extendRightF (a b : List String) (ahi bhi : Nat) : Nat → FlmBest → FlmBest
  | 0, m => m
  | fuel + 1, m =>
    if m.besti + m.bestsize < ahi ∧ m.bestj + m.bestsize < bhi ∧
        a.getD (m.besti + m.bestsize) "" = b.getD (m.bestj + m.bestsize) "" then
      extendRightF a b ahi bhi fuel ⟨m.besti, m.bestj, m.bestsize + 1⟩
    else m

/-- The rightward extension loop, run to completion. -/
def extendRight (a b : List String) (ahi bhi : Nat) (m : FlmBest) : FlmBest :=
  extendRightF a b ahi bhi (ahi - (m.besti + m.bestsize)) m

/-- `SequenceMatcher.find_longest_match` restricted to the no-junk
configuration used by the source. -/
def find_longest_match (a b : List String) (alo ahi blo bhi : Nat) : FlmBest :=
  extendRight a b ahi bhi (extendLeft a b alo blo (flmCore a b alo ahi blo bhi))

/-! ### Invariants of find_longest_match

`flm_spec` below shows that the returned triple is either the trivial
`(alo, blo, 0)` or an in-window match whose elements agree pairwise; it
justifies termination of the `get_matching_blocks` recursion and feeds the
structural lemmas about opcodes. -/

/-- The elements covered by a match agree in `a` and `b`. -/
def SliceEq (a b : List String) (m : FlmBest) : Prop :=
  ∀ t, t < m.bestsize → a.getD (m.besti + t) "" = b.getD (m.bestj + t) ""

/-- Invariant of the best triple: untouched, or an in-window match of
positive size whose slices agree. -/
def BInv (a b : List String) (alo ahi blo bhi : Nat) (m : FlmBest) : Prop :=
  m = ⟨alo, blo, 0⟩ ∨
  (alo ≤ m.besti ∧ blo ≤ m.bestj ∧ 0 < m.bestsize ∧
   m.besti + m.bestsize ≤ ahi ∧ m.bestj + m.bestsize ≤ bhi ∧ SliceEq a b m)

/-- A matching run of length `v` ending at position `(i, j)`. -/
def RunEq (a b : List String) (i j v : Nat) : Prop :=
  ∀ t, t < v → a.getD (i - t) "" = b.getD (j - t) ""

/-- Invariant of the `j2len` table after `rdone` rows starting at `alo`:
entries are bounded by the number of rows processed, stay inside the `b`
window, and record genuine matching runs ending at row `alo + rdone - 1`. -/
def JInv (a b : List String) (alo blo bhi rdone : Nat) (J : Nat → Nat) : Prop :=
  ∀ j, J j ≤ rdone ∧
    (J j ≠ 0 → blo + J j ≤ j + 1 ∧ j < bhi ∧ RunEq a b (alo + rdone - 1) j (J j))

/-! ### Stable sorting

Python `sorted` and `list.sort` are stable sorts; a stable sort is
determined uniquely by the boolean order, so it is embedded as insertion
sort, which the kernel can evaluate. -/

def orderedIns (le : α → α → Bool) (x : α) : List α → List α
  | [] => [x]
  | y :: l => if le x y then x :: y :: l else y :: orderedIns le x l

def insSort (le : α → α → Bool) : List α → List α
  | [] => []
  | x :: l => orderedIns le x (insSort le l)

/-- Lexicographic comparison of difflib `Match` triples, as Python tuple
comparison in `matching_blocks.sort()`. -/
def blockLe (x y : FlmBest) : Bool :=
  if x.besti < y.besti then true
  else if y.besti < x.besti then false
  else if x.bestj < y.bestj then true
  else if y.bestj < x.bestj then false
  else x.bestsize ≤ y.bestsize

/-! ### get_matching_blocks and get_opcodes -/

/-- The recursive block collection of `get_matching_blocks` (the source
uses an explicit stack; the collected set of blocks is identical and is
sorted afterwards either way).  The counter bounds the recursion depth:
by `flm_spec` a nonzero match has `alo ≤ besti`, `besti + size ≤ ahi` and
`size ≥ 1`, so both sub-windows are strictly narrower in `ahi - alo` and
any counter of at least `ahi - alo` never cuts the recursion short. -/
def mbRecF (a b : List String) : Nat → Nat → Nat → Nat → Nat → List FlmBest
  | 0, _, _, _, _ => []
  | fuel + 1, alo, ahi, blo, bhi =>
    let m := find_longest_match a b alo ahi blo bhi
    if m.bestsize = 0 then []
    else
      (if alo < m.besti ∧ blo < m.bestj then
         mbRecF a b fuel alo m.besti blo m.bestj
       else []) ++
      m ::
      (if m.besti + m.bestsize < ahi ∧ m.bestj + m.bestsize < bhi then
         mbRecF a b fuel (m.besti + m.bestsize) ahi (m.bestj + m.bestsize) bhi
       else [])

/-- The block collection run to completion on a window. -/
def matchingBlocksRec (a b : List String) (alo ahi blo bhi : Nat) : List FlmBest :=
  mbRecF a b (ahi - alo) alo ahi blo bhi

/-- The adjacent-block merging pass of `get_matching_blocks` (state
`(i1, j1, k1)` is `cur`, accumulating into `acc`). -/
def nonAdjacent (acc : List FlmBest) (cur : FlmBest) : List FlmBest → List FlmBest
  | [] => if cur.bestsize ≠ 0 then acc ++ [cur] else acc
  | blk :: rest =>
    if cur.besti + cur.bestsize = blk.besti ∧ cur.bestj + cur.bestsize = blk.bestj then
      nonAdjacent acc ⟨cur.besti, cur.bestj, cur.bestsize + blk.bestsize⟩ rest
    else
      nonAdjacent (if cur.bestsize ≠ 0 then acc ++ [cur] else acc) blk rest

/-- `SequenceMatcher.get_matching_blocks`: recursive collection, sort,
adjacent merge, final sentinel `(la, lb, 0)`. -/
def get_matching_blocks (a b : List String) : List FlmBest :=
  nonAdjacent [] ⟨0, 0, 0⟩
    (insSort blockLe (matchingBlocksRec a b 0 a.length 0 b.length)) ++
  [⟨a.length, b.length, 0⟩]

/-- An opcode `(tag, i1, i2, j1, j2)` of `get_opcodes`. -/
structure Op where
  tag : String
  i1 : Nat
  i2 : Nat
  j1 : Nat
  j2 : Nat
deriving Repr, DecidableEq

/-- The loop of `get_opcodes` over the matching blocks, carrying the
positions `i, j` reached so far. -/
def opcodesAux : Nat → Nat → List FlmBest → List Op
  | _, _, [] => []
  | i, j, blk :: rest =>
    (if i < blk.besti ∧ j < blk.bestj then [⟨"replace", i, blk.besti, j, blk.bestj⟩]
     else if i < blk.besti then [⟨"delete", i, blk.besti, j, blk.bestj⟩]
     else if j < blk.bestj then [⟨"insert", i, blk.besti, j, blk.bestj⟩]
     else []) ++
    (if blk.bestsize ≠ 0 then
       [⟨"equal", blk.besti, blk.besti + blk.bestsize,
         blk.bestj, blk.bestj + blk.bestsize⟩]
     else []) ++
    opcodesAux (blk.besti + blk.bestsize) (blk.bestj + blk.bestsize) rest

/-- `SequenceMatcher.get_opcodes`. -/
def get_opcodes (a b : List String) : List Op :=
  opcodesAux 0 0 (get_matching_blocks a b)

/-! ### diff_paragraphs -/

/-- The `Change` dict of diff_utils.py with keys added / removed /
changed. -/
structure Change where
  added : List (Nat × String)
  removed : List (Nat × String)
  changed : List ((Nat × String) × (Nat × String))
deriving Repr, DecidableEq

/-- The empty change record. -/
def emptyChange : Change := ⟨[], [], []⟩

/-- Enumerated slice `[(t, l[t]) for t in range(lo, lo+len)]`. -/
def enumSlice (l : List String) (lo len : Nat) : List (Nat × String) :=
  (List.range' lo len).map (fun t => (t, l.getD t ""))

/-- Processing of one opcode in `diff_paragraphs`: deletions extend
`removed`, insertions extend `added`, replacements pair up positionally
and push the surplus side into `added` or `removed`. -/
def diffStep (oldP newP : List String) (c : Change) (op : Op) : Change :=
  if op.tag = "delete" then
    { c with removed := c.removed ++ enumSlice oldP op.i1 (op.i2 - op.i1) }
  else if op.tag = "insert" then
    { c with added := c.added ++ enumSlice newP op.j1 (op.j2 - op.j1) }
  else if op.tag = "replace" then
    let c2 := { c with changed := c.changed ++
      (enumSlice oldP op.i1 (op.i2 - op.i1)).zip (enumSlice newP op.j1 (op.j2 - op.j1)) }
    if op.i2 - op.i1 < op.j2 - op.j1 then
      { c2 with added := c2.added ++
        enumSlice newP (op.j1 + (op.i2 - op.i1)) ((op.j2 - op.j1) - (op.i2 - op.i1)) }
    else if op.j2 - op.j1 < op.i2 - op.i1 then
      { c2 with removed := c2.removed ++
        enumSlice oldP (op.i1 + (op.j2 - op.j1)) ((op.i2 - op.i1) - (op.j2 - op.j1)) }
    else c2
  else c

/-- `diff_paragraphs` from diff_utils.py. -/
def diff_paragraphs (old_paras new_paras : List String) : Change :=
  (get_opcodes old_paras new_paras).foldl (diffStep old_paras new_paras) emptyChange

/-! ### detect_paragraph_section_changes -/

/-- Split a character list at a separator character (`n` separators give
`n+1` parts). -/
def splitOnChar (sep : Char) : List Char → List (List Char)
  | [] => [[]]
  | c :: cs =>
    match splitOnChar sep cs with
    | [] => [[c]]
    | h :: t => if c = sep then [] :: h :: t else (c :: h) :: t

/-- Python `int` on a run of decimal digits (leading zeros allowed). -/
def parseNatDigits (cs : List Char) : Nat :=
  cs.foldl (fun n c => n * 10 + (c.toNat - 48)) 0

/-- The sort key `list(map(int, s.split('.')))` of the source. -/
def segs (s : String) : List Nat :=
  (splitOnChar '.' s.data).map parseNatDigits

/-- Lexicographic order on integer-segment lists, as Python list
comparison. -/
def lexLe : List Nat → List Nat → Bool
  | [], _ => true
  | _ :: _, [] => false
  | x :: xs, y :: ys =>
    if x < y then true else if y < x then false else lexLe xs ys

/-- Section-key comparison used by `sorted(..., key=...)`. -/
def keyLe (s1 s2 : String) : Bool :=
  lexLe (segs s1) (segs s2)

/-- The sorted iteration order of section keys. -/
def sortKeys (ks : List String) : List String :=
  insSort keyLe ks

/-- The key set `set(old_secs) | set(new_secs)` (first-seen order; the
result is sorted immediately afterwards). -/
def unionKeys (k1 k2 : List String) : List String :=
  k1 ++ k2.filter (fun s => !(k1.contains s))

/-- `detect_paragraph_section_changes` from diff_utils.py, as the ordered
association list the Python dict comprehension builds. -/
def detect_paragraph_section_changes (oldT newT : String) : List (String × Change) :=
  let oldS := split_into_sections oldT
  let newS := split_into_sections newT
  (sortKeys (unionKeys (oldS.map Prod.fst) (newS.map Prod.fst))).map
    (fun sec => (sec, diff_paragraphs (alGetD oldS sec) (alGetD newS sec)))

/-! ### app.py: flatten_changes -/

/-- A JSON-able value appearing in the change-record dicts. -/
inductive JVal where
  | s (v : String)
  | n (v : Nat)
deriving Repr, DecidableEq

/-- A Python dict with string keys, modelled as an insertion-ordered
association list. -/
abbrev PyDict := List (String × JVal)

/-- First-match lookup in a dict. -/
def dLookup (d : PyDict) (key : String) : Option JVal :=
  match d with
  | [] => none
  | p :: rest => if p.1 = key then some p.2 else dLookup rest key

/-- The record dict built by `flatten_changes` for an added paragraph. -/
def addedRec (sec : String) (idx : Nat) (para : String) : PyDict :=
  [("section", .s sec), ("change_type", .s "Added"), ("old", .s ""),
   ("new", .s para), ("index", .n idx)]

/-- The record dict built by `flatten_changes` for a removed paragraph. -/
def removedRec (sec : String) (idx : Nat) (para : String) : PyDict :=
  [("section", .s sec), ("change_type", .s "Removed"), ("old", .s para),
   ("new", .s ""), ("index", .n idx)]

/-- The record dict built by `flatten_changes` for a modified paragraph. -/
def modifiedRec (sec : String) (oldIdx : Nat) (oldPara : String)
    (newIdx : Nat) (newPara : String) : PyDict :=
  [("section", .s sec), ("change_type", .s "Modified"), ("old", .s oldPara),
   ("new", .s newPara), ("old_index", .n oldIdx), ("new_index", .n newIdx)]

/-- The records contributed by one section, in the source's order: added,
then removed, then changed. -/
def sectionRecords (sec : String) (c : Change) : List PyDict :=
  c.added.map (fun p => addedRec sec p.1 p.2) ++
  c.removed.map (fun p => removedRec sec p.1 p.2) ++
  c.changed.map (fun p => modifiedRec sec p.1.1 p.1.2 p.2.1 p.2.2)

/-- `flatten_changes` from app.py. -/
def flatten_changes (raw : List (String × Change)) : List PyDict :=
  raw.foldl (fun out e => out ++ sectionRecords e.1 e.2) []

/-! ### llm_client.py: correct_change_type -/

/-- `correct_change_type` from llm_client.py, applied to the old/new texts
of a change (the source reads them from the change dict and strips them
before all comparisons). -/
def correct_change_type (old new : String) : String :=
  let o := pyStripS old
  let n := pyStripS new
  if o = "" ∧ n ≠ "" then "Added"
  else if o ≠ "" ∧ n = "" then "Removed"
  else if o ≠ n then "Modified"
  else "Unchanged"

/-! ### app.py: change_streamer and analyze

The streamer is an async generator that, for each record in order, awaits
the analyzer (a single-worker executor) for Added/Modified records,
substitutes a canned result for others, merges the record with the result
and yields it.  Every analyzer call is awaited before the next record is
processed, so the embedding is a sequential fold; the analyzer collaborator
is an oracle mapping the record position to either a parsed result dict or
an error message (exceptions, timeouts and unparseable output all surface
as the error case).  The artificial `asyncio.sleep` pacing does not affect
the produced byte stream and is not modelled. -/

/-- One yielded chunk of the response stream. -/
inductive Chunk where
  | openTok
  | sepTok
  | objTok (d : PyDict)
  | closeTok
deriving Repr, DecidableEq

/-- The canned result substituted for records that skip analysis. -/
def removedDetails : PyDict :=
  [("change_summary", .s "Section removed"),
   ("change_type", .s "Deletion of Requirement"),
   ("potential_impact", .s "Verify removal in SOPs.")]

/-- The substituted result when the analyzer call raises. -/
def errorDetails (e : String) : PyDict :=
  [("change_summary", .s "Error during analysis"),
   ("change_type", .s "Error"),
   ("potential_impact", .s e)]

/-- Whether the streamer dispatches this record to the analyzer
(`change['change_type'] in ('Added', 'Modified')`). -/
def needsAnalysis (c : PyDict) : Bool :=
  dLookup c "change_type" = some (.s "Added") ∨
  dLookup c "change_type" = some (.s "Modified")

/-- The details dict obtained for the record at position `idx`. -/
def detailsFor (oracle : Nat → Except String PyDict) (idx : Nat) (c : PyDict) : PyDict :=
  if needsAnalysis c then
    match oracle idx with
    | .ok d => d
    | .error e => errorDetails e
  else removedDetails

/-- Insert-or-assign of one key/value pair into a dict, as Python dict
item assignment: overwrite the entry in place when the key is present
(Python dicts have unique keys), otherwise append at the end. -/
def dAssign (d : PyDict) (kv : String × JVal) : PyDict :=
  match d with
  | [] => [kv]
  | p :: rest =>
    if p.1 = kv.1 then (p.1, kv.2) :: rest else p :: dAssign rest kv

/-- The Python merge `{**c, **d}`: insert the pairs of `c` then of `d`
into a fresh dict, later assignments winning. -/
def dictMerge (c d : PyDict) : PyDict :=
  d.foldl dAssign (c.foldl dAssign [])

/-- The per-record loop of `change_streamer`, returning the emitted chunks
and the positions at which the analyzer was invoked. -/
def streamLoop (oracle : Nat → Except String PyDict) :
    List PyDict → Nat → Bool → List Chunk × List Nat
  | [], _, _ => ([], [])
  | c :: rest, idx, first =>
    let details := detailsFor oracle idx c
    let calls : List Nat := if needsAnalysis c then [idx] else []
    let r := streamLoop oracle rest (idx + 1) false
    ((if first then [] else [Chunk.sepTok]) ++ Chunk.objTok (dictMerge c details) :: r.1,
     calls ++ r.2)

/-- `change_streamer` from app.py: the emitted chunk sequence (opening and
closing array framing around the separated objects) together with the
analyzer invocations it makes. -/
def change_streamer (changes : List PyDict) (oracle : Nat → Except String PyDict) :
    List Chunk × List Nat :=
  let r := streamLoop oracle changes 0 true
  (Chunk.openTok :: r.1 ++ [Chunk.closeTok], r.2)

/-- The response of the `analyze` endpoint: the plain empty-changes JSON
response, or the streamed body. -/
inductive AnalyzeOut where
  | jsonEmpty
  | streamed (chunks : List Chunk)
deriving Repr, DecidableEq

/-- The `analyze` endpoint of app.py after file decoding: detect, flatten,
return the empty response when there are no records, otherwise stream.
The second component records which analyzer calls are ever made. -/
def analyze (oldT newT : String) (oracle : Nat → Except String PyDict) :
    AnalyzeOut × List Nat :=
  let flat := flatten_changes (detect_paragraph_section_changes oldT newT)
  if flat = [] then (.jsonEmpty, [])
  else
    let r := change_streamer flat oracle
    (.streamed r.1, r.2)

/-- The objects emitted by a chunk stream, in emission order. -/
def emittedObjs (chunks : List Chunk) : List PyDict :=
  chunks.filterMap (fun ch => match ch with | .objTok d => some d | _ => none)

/-- The per-record enrichment the streamer performs, as a plain map with
positions counted from `idx` (specification shorthand for the theorems
below). -/
def enrichFrom (oracle : Nat → Except String PyDict) : List PyDict → Nat → List PyDict
  | [], _ => []
  | c :: rest, idx => dictMerge c (detailsFor oracle idx c) :: enrichFrom oracle rest (idx + 1)

/-- A dict has pairwise distinct keys (always true of real Python dicts). -/
def dictKeysNodup (d : PyDict) : Prop :=
  (d.map Prod.fst).Nodup

/-- The paragraphs the scan builds from a preamble (a run of lines with no
header match), processed exactly as `split_into_sections` processes them:
they accumulate under the default section "0". -/
def preParas (pre : List String) : List String :=
  alGetD (flushBuf (pre.foldl procLine ⟨[], "0", []⟩)).sections "0"

/-- The old document of the end-to-end scenario of the specification. -/
def scenarioOld : String :=
  "1. Intro\nHello\n\n2. Body\nWorld"

/-- The new document of the end-to-end scenario of the specification. -/
def scenarioNew : String :=
  "1. Intro\nHello there\n\n2. Body\nWorld\n\n3. New\nExtra"

/-- The blocks of a list follow each other: each starts at or after the
point where the previous one ends, on both sides. -/
def Chained : Nat → Nat → List FlmBest → Prop
  | _, _, [] => True
  | i, j, blk :: rest =>
    i ≤ blk.besti ∧ j ≤ blk.bestj ∧
    Chained (blk.besti + blk.bestsize) (blk.bestj + blk.bestsize) rest

/-- The `(i, j)` position reached after walking a block list from
`(i, j)`. -/
def chainEnd : Nat → Nat → List FlmBest → Nat × Nat
  | i, j, [] => (i, j)
  | _, _, blk :: rest =>
    chainEnd (blk.besti + blk.bestsize) (blk.bestj + blk.bestsize) rest

/-- The total number of records a `Change` carries. -/
def recCount (c : Change) : Nat :=
  c.added.length + c.removed.length + c.changed.length

/-! ## Theorems -/

theorem innerFold_spec (a b : List String) (alo ahi blo bhi rdone : Nat)
    (J : Nat → Nat) (i : Nat) (hi : i = alo + rdone) (hia : i < ahi)
    (hJ : JInv a b alo blo bhi rdone J) :
    ∀ (js : List Nat) (W : Nat → Nat) (B : FlmBest),
      (∀ j ∈ js, blo ≤ j ∧ j < bhi ∧ b.getD j "" = a.getD i "") →
      JInv a b alo blo bhi (rdone + 1) W →
      BInv a b alo ahi blo bhi B →
      JInv a b alo blo bhi (rdone + 1) (js.foldl (innerStep i J) (W, B)).1 ∧
      BInv a b alo ahi blo bhi (js.foldl (innerStep i J) (W, B)).2 := by
  intro js
  induction js with
  | nil => intro W B _ hW hB; exact ⟨hW, hB⟩
  | cons j js ih =>
    intro W B hjs hW hB
    obtain ⟨hblo, hbhi, hab⟩ := hjs j (List.mem_cons_self j js)
    -- facts about the new length k
    set k := (if j = 0 then 0 else J (j - 1)) + 1 with hk
    have hkr : k ≤ rdone + 1 := by
      by_cases h0 : j = 0
      · simp [hk, h0]
      · have := (hJ (j - 1)).1
        simp [hk, h0]; omega
    have hkb : blo + k ≤ j + 1 := by
      by_cases h0 : j = 0
      · have : blo = 0 := by omega
        simp [hk, h0, this]
      · by_cases hz : J (j - 1) = 0
        · simp [hk, h0, hz]; omega
        · have := ((hJ (j - 1)).2 hz).1
          simp [hk, h0]; omega
    have hrun : RunEq a b i j k := by
      intro t ht
      match t with
      | 0 => simpa using hab.symm
      | s + 1 =>
        have h0 : ¬ j = 0 := by
          intro h; rw [hk, if_pos h] at ht; omega
        have hz : J (j - 1) ≠ 0 := by
          intro h; rw [hk, if_neg h0, h] at ht; omega
        have hs : s < J (j - 1) := by
          rw [hk, if_neg h0] at ht; omega
        have hrd : 1 ≤ rdone := by
          have := (hJ (j - 1)).1; omega
        have hr := ((hJ (j - 1)).2 hz).2.2 s hs
        have e1 : i - (s + 1) = alo + rdone - 1 - s := by omega
        have e2 : j - (s + 1) = j - 1 - s := by omega
        rw [e1, e2]; exact hr
    -- unfold one step of the fold
    rw [List.foldl_cons]
    refine ih (innerStep i J (W, B) j).1 (innerStep i J (W, B) j).2
      (fun j2 hj2 => hjs j2 (List.mem_cons_of_mem j hj2)) ?_ ?_
    · -- table invariant after writing entry j
      have hwk : (innerStep i J (W, B) j).1 j = k := by
        rw [hk]; simp [innerStep]
      intro j2
      by_cases hj2 : j2 = j
      · subst hj2
        rw [hwk]
        refine ⟨hkr, fun _ => ⟨hkb, hbhi, ?_⟩⟩
        have : alo + (rdone + 1) - 1 = i := by omega
        rw [this]; exact hrun
      · have : (innerStep i J (W, B) j).1 j2 = W j2 := by
          simp [innerStep, hj2]
        rw [this]; exact hW j2
    · -- best-triple invariant after the possible update
      by_cases hup : B.bestsize < k
      · have hbu : (innerStep i J (W, B) j).2 = ⟨i + 1 - k, j + 1 - k, k⟩ := by
          rw [hk]; simp only [innerStep]
          rw [if_pos (by rw [hk] at hup; exact hup)]
        rw [hbu]
        right
        have hk1 : 1 ≤ k := by rw [hk]; omega
        have hki : k ≤ i + 1 := by omega
        have hkj : k ≤ j + 1 := by omega
        refine ⟨?_, ?_, ?_, ?_, ?_, ?_⟩
        · show alo ≤ i + 1 - k
          omega
        · show blo ≤ j + 1 - k
          omega
        · show 0 < k
          omega
        · show i + 1 - k + k ≤ ahi
          omega
        · show j + 1 - k + k ≤ bhi
          omega
        · intro t ht
          have ht2 : t < k := ht
          have hs : k - 1 - t < k := by omega
          show a.getD (i + 1 - k + t) "" = b.getD (j + 1 - k + t) ""
          have e1 : i + 1 - k + t = i - (k - 1 - t) := by omega
          have e2 : j + 1 - k + t = j - (k - 1 - t) := by omega
          rw [e1, e2]
          exact hrun (k - 1 - t) hs
      · have : (innerStep i J (W, B) j).2 = B := by
          simp only [innerStep]
          rw [if_neg (by rw [hk] at hup; exact hup)]
        rw [this]; exact hB

theorem rowStep_spec (a b : List String) (alo ahi blo bhi rdone : Nat)
    (st : (Nat → Nat) × FlmBest) (hia : alo + rdone < ahi)
    (hJ : JInv a b alo blo bhi rdone st.1) (hB : BInv a b alo ahi blo bhi st.2) :
    JInv a b alo blo bhi (rdone + 1) (rowStep a b blo bhi st (alo + rdone)).1 ∧
    BInv a b alo ahi blo bhi (rowStep a b blo bhi st (alo + rdone)).2 := by
  have hW0 : JInv a b alo blo bhi (rdone + 1) (fun _ => 0) := by
    intro j; exact ⟨Nat.zero_le _, fun h => absurd rfl h⟩
  have hjs : ∀ j ∈ (b2j b (a.getD (alo + rdone) "")).filter
      (fun j => decide (blo ≤ j) && decide (j < bhi)),
      blo ≤ j ∧ j < bhi ∧ b.getD j "" = a.getD (alo + rdone) "" := by
    intro j hj
    rw [List.mem_filter] at hj
    obtain ⟨hmem, hcond⟩ := hj
    simp only [Bool.and_eq_true, decide_eq_true_eq] at hcond
    rw [b2j, List.mem_filter] at hmem
    exact ⟨hcond.1, hcond.2, by simpa using hmem.2⟩
  exact innerFold_spec a b alo ahi blo bhi rdone st.1 (alo + rdone) rfl hia hJ
    _ (fun _ => 0) st.2 hjs hW0 hB

theorem flmCore_fold_spec (a b : List String) (alo ahi blo bhi : Nat) :
    ∀ (cnt : Nat), alo + cnt ≤ ahi →
      JInv a b alo blo bhi cnt
        ((List.range' alo cnt).foldl (rowStep a b blo bhi) (fun _ => 0, ⟨alo, blo, 0⟩)).1 ∧
      BInv a b alo ahi blo bhi
        ((List.range' alo cnt).foldl (rowStep a b blo bhi) (fun _ => 0, ⟨alo, blo, 0⟩)).2 := by
  intro cnt
  induction cnt with
  | zero =>
    intro _
    constructor
    · intro j; exact ⟨Nat.zero_le _, fun h => absurd rfl h⟩
    · exact Or.inl rfl
  | succ c ih =>
    intro hle
    have hc : alo + c ≤ ahi := by omega
    have hia : alo + c < ahi := by omega
    obtain ⟨hJ, hB⟩ := ih hc
    rw [List.range'_1_concat, List.foldl_append, List.foldl_cons, List.foldl_nil]
    exact rowStep_spec a b alo ahi blo bhi c _ hia hJ hB

theorem flmCore_spec (a b : List String) (alo ahi blo bhi : Nat) :
    BInv a b alo ahi blo bhi (flmCore a b alo ahi blo bhi) := by
  rw [flmCore]
  by_cases h : alo ≤ ahi
  · exact (flmCore_fold_spec a b alo ahi blo bhi (ahi - alo) (by omega)).2
  · have : ahi - alo = 0 := by omega
    rw [this]
    exact Or.inl rfl

theorem extendLeftF_spec (a b : List String) (alo ahi blo bhi : Nat) :
    ∀ (fuel : Nat) (m : FlmBest), BInv a b alo ahi blo bhi m →
      BInv a b alo ahi blo bhi (extendLeftF a b alo blo fuel m) := by
  intro fuel
  induction fuel with
  | zero => intro m hm; exact hm
  | succ f ih =>
    intro m hm
    rw [extendLeftF]
    split
    · rename_i h
      obtain ⟨h1, h2, h3⟩ := h
      refine ih _ ?_
      rcases hm with heq | ⟨ha1, ha2, ha3, ha4, ha5, ha6⟩
      · exfalso; rw [heq] at h1; simp at h1
      · right
        refine ⟨by show alo ≤ m.besti - 1; omega, by show blo ≤ m.bestj - 1; omega,
          by show 0 < m.bestsize + 1; omega,
          by show m.besti - 1 + (m.bestsize + 1) ≤ ahi; omega,
          by show m.bestj - 1 + (m.bestsize + 1) ≤ bhi; omega, ?_⟩
        intro t ht
        show a.getD (m.besti - 1 + t) "" = b.getD (m.bestj - 1 + t) ""
        match t with
        | 0 => simpa using h3
        | s + 1 =>
          have e1 : m.besti - 1 + (s + 1) = m.besti + s := by omega
          have e2 : m.bestj - 1 + (s + 1) = m.bestj + s := by omega
          rw [e1, e2]
          exact ha6 s (by simp at ht ⊢; omega)
    · exact hm

theorem extendRightF_spec (a b : List String) (alo ahi blo bhi : Nat) :
    ∀ (fuel : Nat) (m : FlmBest), BInv a b alo ahi blo bhi m →
      BInv a b alo ahi blo bhi (extendRightF a b ahi bhi fuel m) := by
  intro fuel
  induction fuel with
  | zero => intro m hm; exact hm
  | succ f ih =>
    intro m hm
    rw [extendRightF]
    split
    · rename_i h
      obtain ⟨h1, h2, h3⟩ := h
      refine ih _ ?_
      rcases hm with heq | ⟨ha1, ha2, ha3, ha4, ha5, ha6⟩
      · right
        rw [heq] at h1 h2 h3 ⊢
        refine ⟨le_refl _, le_refl _, by show 0 < 0 + 1; omega,
          by show alo + (0 + 1) ≤ ahi; simp at h1; omega,
          by show blo + (0 + 1) ≤ bhi; simp at h2; omega, ?_⟩
        intro t ht
        have h0 : t = 0 := by simp at ht; omega
        subst h0
        simpa using h3
      · right
        refine ⟨ha1, ha2, by show 0 < m.bestsize + 1; omega,
          by show m.besti + (m.bestsize + 1) ≤ ahi; omega,
          by show m.bestj + (m.bestsize + 1) ≤ bhi; omega, ?_⟩
        intro t ht
        show a.getD (m.besti + t) "" = b.getD (m.bestj + t) ""
        have ht2 : t < m.bestsize + 1 := ht
        by_cases he : t = m.bestsize
        · subst he; exact h3
        · exact ha6 t (by omega)
    · exact hm

/-- Soundness of `find_longest_match`: the triple is the trivial
`(alo, blo, 0)` or an in-window match whose covered elements agree. -/
theorem flm_spec (a b : List String) (alo ahi blo bhi : Nat) :
    BInv a b alo ahi blo bhi (find_longest_match a b alo ahi blo bhi) :=
  extendRightF_spec a b alo ahi blo bhi _ _
    (extendLeftF_spec a b alo ahi blo bhi _ _ (flmCore_spec a b alo ahi blo bhi))


/-! ### Dict lemmas -/

theorem dLookup_eq_none (key : String) :
    ∀ (d : PyDict), key ∉ d.map Prod.fst → dLookup d key = none := by
  intro d
  induction d with
  | nil => intro _; rfl
  | cons p rest ih =>
    intro h
    simp only [List.map_cons, List.mem_cons] at h
    push_neg at h
    rw [dLookup, if_neg (fun hh => h.1 hh.symm)]
    exact ih h.2

theorem dAssign_lookup_self (k : String) (v : JVal) :
    ∀ (d : PyDict), dLookup (dAssign d (k, v)) k = some v := by
  intro d
  induction d with
  | nil => rw [dAssign, dLookup, if_pos rfl]
  | cons p rest ih =>
    by_cases h : p.1 = k
    · rw [dAssign, if_pos h, dLookup, if_pos h]
    · rw [dAssign, if_neg h, dLookup, if_neg h]
      exact ih

theorem dAssign_lookup_ne (k k2 : String) (v : JVal) (h : k2 ≠ k) :
    ∀ (d : PyDict), dLookup (dAssign d (k, v)) k2 = dLookup d k2 := by
  intro d
  induction d with
  | nil =>
    simp [dAssign, dLookup, show ¬ k = k2 from fun hh => h hh.symm]
  | cons p rest ih =>
    by_cases hp : p.1 = k
    · have hne : ¬ p.1 = k2 := by rw [hp]; exact fun hh => h hh.symm
      simp [dAssign, dLookup, hp, hne, show ¬ k = k2 from fun hh => h hh.symm]
    · simp only [dAssign, if_neg hp, dLookup]
      by_cases hk2 : p.1 = k2
      · rw [if_pos hk2, if_pos hk2]
      · rw [if_neg hk2, if_neg hk2]
        exact ih

theorem dAssign_keys (k : String) (v : JVal) :
    ∀ (d : PyDict),
      (dAssign d (k, v)).map Prod.fst = d.map Prod.fst ∨
      (dAssign d (k, v)).map Prod.fst = d.map Prod.fst ++ [k] := by
  intro d
  induction d with
  | nil => right; rfl
  | cons p rest ih =>
    by_cases h : p.1 = k
    · left
      rw [dAssign, if_pos h]
      simp
    · rcases ih with he | he
      · left
        rw [dAssign, if_neg h, List.map_cons, List.map_cons, he]
      · right
        rw [dAssign, if_neg h, List.map_cons, List.map_cons, he, List.cons_append]

theorem dAssign_keysNodup (k : String) (v : JVal) :
    ∀ (d : PyDict), dictKeysNodup d → dictKeysNodup (dAssign d (k, v)) := by
  intro d
  induction d with
  | nil => intro _; simp [dAssign, dictKeysNodup]
  | cons p rest ih =>
    intro hd
    rw [dictKeysNodup, List.map_cons, List.nodup_cons] at hd
    by_cases h : p.1 = k
    · rw [dictKeysNodup, dAssign, if_pos h, List.map_cons, List.nodup_cons]
      exact hd
    · rw [dictKeysNodup, dAssign, if_neg h, List.map_cons, List.nodup_cons]
      refine ⟨?_, ih hd.2⟩
      rcases dAssign_keys k v rest with he | he
      · rw [he]; exact hd.1
      · rw [he]
        simp only [List.mem_append, List.mem_singleton]
        rintro (hm | hm)
        · exact hd.1 hm
        · exact h hm

theorem dFold_keysNodup (d : PyDict) :
    ∀ (A : PyDict), dictKeysNodup A → dictKeysNodup (d.foldl dAssign A) := by
  induction d with
  | nil => intro A hA; exact hA
  | cons p rest ih =>
    intro A hA
    rw [List.foldl_cons]
    have he : dAssign A p = dAssign A (p.1, p.2) := rfl
    rw [he]
    exact ih _ (dAssign_keysNodup p.1 p.2 A hA)

theorem dFold_lookup (key : String) :
    ∀ (d : PyDict), dictKeysNodup d → ∀ (A : PyDict),
      dLookup (d.foldl dAssign A) key = (dLookup d key).or (dLookup A key) := by
  intro d
  induction d with
  | nil =>
    intro _ A
    rw [List.foldl_nil, dLookup, Option.none_or]
  | cons p rest ih =>
    intro hd A
    rw [dictKeysNodup, List.map_cons, List.nodup_cons] at hd
    rw [List.foldl_cons, ih hd.2]
    have he : dAssign A p = dAssign A (p.1, p.2) := rfl
    rw [he]
    by_cases h : key = p.1
    · have hnr : dLookup rest key = none :=
        dLookup_eq_none key rest (by rw [h]; exact hd.1)
      rw [hnr, Option.none_or, h, dAssign_lookup_self p.1 p.2 A,
        dLookup, if_pos rfl, Option.or_some]
    · rw [dAssign_lookup_ne p.1 key p.2 h A, dLookup,
        if_neg (fun hh => h hh.symm)]

/-- The Python merge `{**c, **d}` looks keys up in `d` first and falls
back to `c` (for dicts with pairwise distinct keys, as real dicts are). -/
theorem dictMerge_lookup (c d : PyDict) (hc : dictKeysNodup c) (hd : dictKeysNodup d)
    (key : String) :
    dLookup (dictMerge c d) key = (dLookup d key).or (dLookup c key) := by
  rw [dictMerge, dFold_lookup key d hd, dFold_lookup key c hc, dLookup, Option.or_none]

/-! ### Streamer lemmas -/

theorem streamLoop_objs (oracle : Nat → Except String PyDict) :
    ∀ (cs : List PyDict) (idx : Nat) (first : Bool),
      emittedObjs (streamLoop oracle cs idx first).1 = enrichFrom oracle cs idx := by
  intro cs
  induction cs with
  | nil => intro idx first; rfl
  | cons c rest ih =>
    intro idx first
    cases first <;>
      simp only [streamLoop, enrichFrom, emittedObjs, List.filterMap_append,
        List.filterMap_cons, List.filterMap_nil, List.nil_append, List.cons_append,
        if_true, if_false, List.append_nil, Bool.false_eq_true, ite_false, ite_true,
        List.cons.injEq, true_and] <;>
      exact ih (idx + 1) false

theorem change_streamer_objs (changes : List PyDict) (oracle : Nat → Except String PyDict) :
    emittedObjs (change_streamer changes oracle).1 = enrichFrom oracle changes 0 := by
  rw [change_streamer]
  simp only [emittedObjs, List.filterMap_cons, List.filterMap_append, List.filterMap_nil]
  rw [← emittedObjs, streamLoop_objs oracle changes 0 true]
  simp [emittedObjs]

theorem enrichFrom_length (oracle : Nat → Except String PyDict) :
    ∀ (cs : List PyDict) (idx : Nat), (enrichFrom oracle cs idx).length = cs.length := by
  intro cs
  induction cs with
  | nil => intro idx; rfl
  | cons c rest ih => intro idx; simp [enrichFrom, ih]

theorem enrichFrom_getD (oracle : Nat → Except String PyDict) :
    ∀ (cs : List PyDict) (idx i : Nat), i < cs.length →
      (enrichFrom oracle cs idx).getD i [] =
        dictMerge (cs.getD i []) (detailsFor oracle (idx + i) (cs.getD i [])) := by
  intro cs
  induction cs with
  | nil => intro idx i h; simp at h
  | cons c rest ih =>
    intro idx i h
    match i with
    | 0 => simp [enrichFrom]
    | i + 1 =>
      have hi : i < rest.length := by simpa using h
      have hr := ih (idx + 1) i hi
      simp only [enrichFrom, List.getD_cons_succ]
      rw [hr]
      have e : idx + 1 + i = idx + (i + 1) := by omega
      rw [e]

/-! ### Claim C1 -/

/-- Claim C1 (evaluation at the failing input): on the specification's
end-to-end scenario the pipeline does NOT produce a Modified record for
section "1" and an Added record for section "3".  The header pattern
rejects "1. Intro" (the dot after the digits is followed by a space, not a
digit, and the regex requires whitespace or end-of-line right after the
captured key), so no line of either document is a header, all content is
collected under the default section "0", and the flat change list is an
Added and a Modified record for section "0". -/
theorem claim_C1_divergence :
    flatten_changes (detect_paragraph_section_changes scenarioOld scenarioNew) =
      [addedRec "0" 2 "3. New\nExtra",
       modifiedRec "0" 0 "1. Intro\nHello" 0 "1. Intro\nHello there"] ∧
    matchHeader "1. Intro" = none ∧
    split_into_sections scenarioOld =
      [("0", ["1. Intro\nHello", "2. Body\nWorld"])] := by
  refine ⟨by decide, by decide, by decide⟩

/-! ### Claim C2 -/

/-- Claim C2 counterexample: lines before the first valid header are NOT
discarded.  In "Hello\n\n1 Intro\nBody" the line "Hello" precedes the
first header "1 Intro", yet the paragraph "Hello" appears in the output
mapping, under the default section "0". -/
theorem claim_C2_counterexample :
    matchHeader "Hello" = none ∧
    split_into_sections "Hello\n\n1 Intro\nBody" =
      [("0", ["Hello"]), ("1", ["Intro\nBody"])] := by
  refine ⟨by decide, by decide⟩

/-! ### Claim C5 -/

/-- Claim C5 counterexample: the classifier is not the stated function of
the raw (old, new) pair.  For old = "x" and new = "x " both raw texts are
non-empty and differ, so the claim requires Modified, but the code strips
both sides first and returns "Unchanged". -/
theorem claim_C5_counterexample :
    correct_change_type "x" "x " = "Unchanged" ∧
    ("x" : String) ≠ "x " ∧ ("x" : String) ≠ "" ∧ ("x " : String) ≠ "" := by
  refine ⟨by decide, by decide, by decide, by decide⟩

/-- Claim C5 amended: the change-kind classifier is a pure function of the
whitespace-stripped (old, new) pair: Added iff stripped old is empty and
stripped new is non-empty; Removed iff stripped old is non-empty and
stripped new is empty; Modified iff both stripped sides are non-empty and
differ; Unchanged iff the stripped sides are equal. -/
theorem claim_C5_amended (old new : String) :
    (correct_change_type old new = "Added" ↔
      pyStripS old = "" ∧ pyStripS new ≠ "") ∧
    (correct_change_type old new = "Removed" ↔
      pyStripS old ≠ "" ∧ pyStripS new = "") ∧
    (correct_change_type old new = "Modified" ↔
      pyStripS old ≠ "" ∧ pyStripS new ≠ "" ∧ pyStripS old ≠ pyStripS new) ∧
    (correct_change_type old new = "Unchanged" ↔
      pyStripS old = pyStripS new) := by
  rw [correct_change_type]
  split_ifs with h1 h2 h3
  · exact ⟨⟨fun _ => h1, fun _ => rfl⟩,
      ⟨fun hh => absurd hh (by decide), fun hh => absurd h1.1 hh.1⟩,
      ⟨fun hh => absurd hh (by decide), fun hh => absurd h1.1 hh.1⟩,
      ⟨fun hh => absurd hh (by decide),
       fun hh => absurd (hh.symm.trans h1.1) h1.2⟩⟩
  · exact ⟨⟨fun hh => absurd hh (by decide), fun hh => absurd hh.1 h2.1⟩,
      ⟨fun _ => h2, fun _ => rfl⟩,
      ⟨fun hh => absurd hh (by decide), fun hh => absurd h2.2 hh.2.1⟩,
      ⟨fun hh => absurd hh (by decide),
       fun hh => absurd (hh.trans h2.2) h2.1⟩⟩
  · refine ⟨⟨fun hh => absurd hh (by decide), fun hh => absurd hh h1⟩,
      ⟨fun hh => absurd hh (by decide), fun hh => absurd hh h2⟩,
      ⟨fun _ => ⟨?_, ?_, h3⟩, fun _ => rfl⟩,
      ⟨fun hh => absurd hh (by decide), fun hh => absurd hh h3⟩⟩
    · intro ho
      exact h1 ⟨ho, fun hn => h3 (ho.trans hn.symm)⟩
    · intro hn
      by_cases ho : pyStripS old = ""
      · exact h3 (ho.trans hn.symm)
      · exact h2 ⟨ho, hn⟩
  · push_neg at h3
    exact ⟨⟨fun hh => absurd hh (by decide),
        fun hh => absurd (h3.symm.trans hh.1) hh.2⟩,
      ⟨fun hh => absurd hh (by decide),
       fun hh => absurd (h3.trans hh.2) hh.1⟩,
      ⟨fun hh => absurd hh (by decide), fun hh => absurd h3 hh.2.2⟩,
      ⟨fun _ => h3, fun _ => rfl⟩⟩

/-! ### Claim C6 -/

/-- Claim C6 counterexample: the records of key "1" precede those of key
"01" although the integer-segment sequence of "1" is not lexicographically
smaller than that of "01" (they are equal), refuting the stated "precede
iff smaller" equivalence.  Keys with equal segment sequences arise from
leading zeros and tie under the numeric sort key. -/
theorem claim_C6_counterexample :
    (detect_paragraph_section_changes "1 A" "01 B").map Prod.fst = ["1", "01"] ∧
    (flatten_changes (detect_paragraph_section_changes "1 A" "01 B")).map
        (fun d => dLookup d "section") =
      [some (.s "1"), some (.s "01")] ∧
    segs "1" = segs "01" ∧ ("1" : String) ≠ "01" := by
  refine ⟨by decide, by decide, by decide, by decide⟩

/-! ### Claim C7 -/

/-- Claim C7 counterexample: the change lists of (A, B) and (B, A) are not
symmetric.  With A = "1 x\n\ny" and B = "1 y\n\nx" (one section whose two
paragraphs are swapped), direction (A, B) yields an Added record with
new = "y" and a Removed record with old = "y", while direction (B, A)
yields an Added record with new = "x" and a Removed record with old = "x";
the Added record of the first direction has no Removed counterpart with
old = "y" in the second. -/
theorem claim_C7_counterexample :
    flatten_changes (detect_paragraph_section_changes "1 x\n\ny" "1 y\n\nx") =
      [addedRec "1" 0 "y", removedRec "1" 1 "y"] ∧
    flatten_changes (detect_paragraph_section_changes "1 y\n\nx" "1 x\n\ny") =
      [addedRec "1" 0 "x", removedRec "1" 1 "x"] ∧
    ¬ ∃ d ∈ flatten_changes (detect_paragraph_section_changes "1 y\n\nx" "1 x\n\ny"),
        dLookup d "change_type" = some (.s "Removed") ∧
        dLookup d "old" = some (.s "y") := by
  refine ⟨by decide, by decide, by decide⟩

/-! ### Claim C9 -/

/-- Claim C9 counterexample: the parser does not keep only the last
occurrence of a repeated key.  In "1 A\n\n1 B" the key "1" occurs twice;
the paragraph "A" of the earlier occurrence is retained and the later
occurrence's "B" is appended after it. -/
theorem claim_C9_counterexample :
    split_into_sections "1 A\n\n1 B" = [("1", ["A", "B"])] := by decide

/-! ### Claim C3 -/

/-- Claim C3: for every list of change records and every behavior of the
external analyzer, the streamer emits exactly one enriched object per
record, in the order of the input list: the object at position i is the
merge of record i with its own analysis details, so the record at position
i is always emitted before the record at position i+1. -/
theorem claim_C3 (changes : List PyDict) (oracle : Nat → Except String PyDict) :
    emittedObjs (change_streamer changes oracle).1 = enrichFrom oracle changes 0 ∧
    (emittedObjs (change_streamer changes oracle).1).length = changes.length ∧
    (∀ i, i < changes.length →
      (emittedObjs (change_streamer changes oracle).1).getD i [] =
        dictMerge (changes.getD i []) (detailsFor oracle i (changes.getD i []))) := by
  refine ⟨change_streamer_objs changes oracle, ?_, ?_⟩
  · rw [change_streamer_objs changes oracle]
    exact enrichFrom_length oracle changes 0
  · intro i hi
    rw [change_streamer_objs changes oracle]
    have := enrichFrom_getD oracle changes 0 i hi
    simpa using this

/-- Witness for claim C3 at a concrete record list and analyzer. -/
theorem claim_C3_witness :
    (emittedObjs (change_streamer [addedRec "1" 0 "x", removedRec "2" 1 "y"]
        (fun _ => Except.error "boom")).1).getD 1 [] =
      dictMerge (removedRec "2" 1 "y")
        (detailsFor (fun _ => Except.error "boom") 1 (removedRec "2" 1 "y")) :=
  (claim_C3 [addedRec "1" 0 "x", removedRec "2" 1 "y"]
    (fun _ => Except.error "boom")).2.2 1 (by decide)

/-! ### Claim C4 -/

/-- Claim C4: if the analyzer fails (raises, times out, or returns
unparseable output — all surfacing as the error case of the oracle) for
the dispatched record at position k, that record is still emitted, merged
with the substituted details change_summary = "Error during analysis",
change_type = "Error" and the error detail as potential_impact; every
record still yields exactly one emitted object carrying its own result,
so no analyzer failure aborts the stream. -/
theorem claim_C4 (changes : List PyDict) (oracle : Nat → Except String PyDict)
    (k : Nat) (e : String) (hk : k < changes.length)
    (ham : needsAnalysis (changes.getD k []) = true)
    (herr : oracle k = .error e) :
    (emittedObjs (change_streamer changes oracle).1).length = changes.length ∧
    (emittedObjs (change_streamer changes oracle).1).getD k [] =
      dictMerge (changes.getD k []) (errorDetails e) ∧
    dLookup (errorDetails e) "change_summary" = some (.s "Error during analysis") ∧
    dLookup (errorDetails e) "change_type" = some (.s "Error") ∧
    dLookup (errorDetails e) "potential_impact" = some (.s e) ∧
    (∀ i, i < changes.length →
      (emittedObjs (change_streamer changes oracle).1).getD i [] =
        dictMerge (changes.getD i []) (detailsFor oracle i (changes.getD i []))) := by
  have hobj : ∀ i, i < changes.length →
      (emittedObjs (change_streamer changes oracle).1).getD i [] =
        dictMerge (changes.getD i []) (detailsFor oracle i (changes.getD i [])) := by
    intro i hi
    rw [change_streamer_objs changes oracle]
    simpa using enrichFrom_getD oracle changes 0 i hi
  refine ⟨?_, ?_, by simp [errorDetails, dLookup], by simp [errorDetails, dLookup],
    by simp [errorDetails, dLookup], hobj⟩
  · rw [change_streamer_objs changes oracle]
    exact enrichFrom_length oracle changes 0
  · rw [hobj k hk]
    rw [detailsFor, if_pos ham, herr]

/-- Witness for claim C4 at a concrete record list, failing analyzer and
position. -/
theorem claim_C4_witness :
    (emittedObjs (change_streamer [addedRec "1" 0 "x"]
        (fun _ => Except.error "boom")).1).getD 0 [] =
      dictMerge (addedRec "1" 0 "x") (errorDetails "boom") :=
  (claim_C4 [addedRec "1" 0 "x"] (fun _ => Except.error "boom") 0 "boom"
    (by decide) (by decide) rfl).2.1

/-! ### Claim C10 -/

/-- Claim C10: every emitted object is the key-wise merge of its record
with the analysis details, the details winning on key collision: a key
maps to the details value when the details define it and to the record
value otherwise (so the detected Added/Removed/Modified kind survives
under no other key).  In particular the emitted change_type is the
analyzer-returned classification when analysis succeeds and the analyzer
supplies one, "Error" when the analyzer fails, and
"Deletion of Requirement" for records that skip analysis. -/
theorem claim_C10 (changes : List PyDict) (oracle : Nat → Except String PyDict)
    (i : Nat) (hi : i < changes.length)
    (hc : dictKeysNodup (changes.getD i []))
    (hdet : dictKeysNodup (detailsFor oracle i (changes.getD i []))) :
    (emittedObjs (change_streamer changes oracle).1).getD i [] =
      dictMerge (changes.getD i [])
        (detailsFor oracle i (changes.getD i [])) ∧
    (∀ key,
      dLookup ((emittedObjs (change_streamer changes oracle).1).getD i []) key =
        Option.or (dLookup (detailsFor oracle i (changes.getD i [])) key)
          (dLookup (changes.getD i []) key)) ∧
    (∀ dd v, needsAnalysis (changes.getD i []) = true → oracle i = .ok dd →
      dLookup dd "change_type" = some v →
      dLookup ((emittedObjs (change_streamer changes oracle).1).getD i [])
        "change_type" = some v) ∧
    (∀ e, needsAnalysis (changes.getD i []) = true → oracle i = .error e →
      dLookup ((emittedObjs (change_streamer changes oracle).1).getD i [])
        "change_type" = some (.s "Error")) ∧
    (needsAnalysis (changes.getD i []) = false →
      dLookup ((emittedObjs (change_streamer changes oracle).1).getD i [])
        "change_type" = some (.s "Deletion of Requirement")) := by
  have hobj : (emittedObjs (change_streamer changes oracle).1).getD i [] =
      dictMerge (changes.getD i []) (detailsFor oracle i (changes.getD i [])) := by
    rw [change_streamer_objs changes oracle]
    simpa using enrichFrom_getD oracle changes 0 i hi
  have hlook : ∀ key,
      dLookup ((emittedObjs (change_streamer changes oracle).1).getD i []) key =
        Option.or (dLookup (detailsFor oracle i (changes.getD i [])) key)
          (dLookup (changes.getD i []) key) := by
    intro key
    rw [hobj]
    exact dictMerge_lookup _ _ hc hdet key
  refine ⟨hobj, hlook, ?_, ?_, ?_⟩
  · intro dd v ham hok hv
    rw [hlook "change_type"]
    have hdd : detailsFor oracle i (changes.getD i []) = dd := by
      rw [detailsFor, if_pos ham, hok]
    rw [hdd, hv, Option.or_some]
  · intro e ham herr
    rw [hlook "change_type"]
    have hdd : detailsFor oracle i (changes.getD i []) = errorDetails e := by
      rw [detailsFor, if_pos ham, herr]
    rw [hdd]
    simp [errorDetails, dLookup]
  · intro ham
    rw [hlook "change_type"]
    have hdd : detailsFor oracle i (changes.getD i []) = removedDetails := by
      rw [detailsFor]
      rw [if_neg (by rw [ham]; exact fun hh => Bool.false_ne_true hh)]
    rw [hdd]
    simp [removedDetails, dLookup]

/-- Witness for claim C10 at a concrete record, analyzer result and
position. -/
theorem claim_C10_witness :
    dLookup ((emittedObjs (change_streamer [addedRec "1" 0 "x"]
        (fun _ => Except.ok [("change_type", .s "New Requirement")])).1).getD 0 [])
      "change_type" = some (.s "New Requirement") :=
  (claim_C10 [addedRec "1" 0 "x"]
      (fun _ => Except.ok [("change_type", .s "New Requirement")]) 0
      (by decide) (by unfold dictKeysNodup; decide)
      (by unfold dictKeysNodup; decide)).2.2.1
    [("change_type", .s "New Requirement")] (.s "New Requirement")
    (by decide) rfl (by decide)

/-! ### Claim C9, amended -/

theorem pyStripL_data_of_stripped (a : String) (ha : pyStripS a = a) :
    pyStripL a.data = a.data := by
  have h := congrArg String.data ha
  exact h

theorem matchHeader_hdr1 (a : String) (ha1 : pyStripS a = a) (ha2 : a ≠ "") :
    matchHeader ("1 " ++ a) = some ("1", a) := by
  have hdata : ("1 " ++ a).data = '1' :: ' ' :: a.data := by
    have h := String.data_append "1 " a
    rw [h]
    rfl
  have hd1 : isDigitChar '1' = true := by decide
  have hds : isDigitChar ' ' = false := by decide
  have hns : ¬ (' ' = '.') := by decide
  have hsp : pyIsSpace ' ' = true := by decide
  have hscan : keyScan [] ('1' :: ' ' :: a.data) = (['1'], ' ' :: a.data) := by
    simp [keyScan, hd1, hds, hns]
  have hstrip : pyStripL (' ' :: a.data) = a.data := by
    rw [pyStripL, List.dropWhile_cons_of_pos (by rw [hsp])]
    rw [← pyStripL]
    exact pyStripL_data_of_stripped a ha1
  rw [matchHeader]
  simp only [hdata, hscan, hd1, if_true, hsp, hstrip]
  rfl

theorem flushBuf_nilbuf (secs : SectionMap) (cur : String) :
    flushBuf ⟨secs, cur, []⟩ = ⟨secs, cur, []⟩ := by
  rw [flushBuf]
  simp only [joinNL]
  rfl

/-- Claim C9 amended: when the same section key appears as a header more
than once, the parser merges the occurrences rather than keeping only the
last one: paragraphs of earlier occurrences are retained and later
occurrences' paragraphs are appended after them.  Schema: for a document
whose lines are a header "1 a", a blank line and a second header "1 b"
(with a, b non-empty and already stripped), the output maps "1" to
[a, b] — the earlier occurrence's paragraph a is kept. -/
theorem claim_C9_amended (a b : String)
    (ha1 : pyStripS a = a) (ha2 : a ≠ "")
    (hb1 : pyStripS b = b) (hb2 : b ≠ "") :
    splitSectionsLines ["1 " ++ a, "", "1 " ++ b] = [("1", [a, b])] := by
  have hstA : pyStripS a = a := ha1
  rw [splitSectionsLines, List.foldl_cons, List.foldl_cons, List.foldl_cons,
    List.foldl_nil]
  have h1 : procLine ⟨[], "0", []⟩ ("1 " ++ a) = ⟨[("1", [])], "1", [a]⟩ := by
    rw [procLine, matchHeader_hdr1 a ha1 ha2]
    rw [flushBuf_nilbuf]
    simp only [alEnsure, if_neg ha2]
  rw [h1]
  have h2 : procLine ⟨[("1", [])], "1", [a]⟩ "" = ⟨[("1", [a])], "1", []⟩ := by
    rw [procLine]
    have hmh : matchHeader "" = none := by decide
    rw [hmh]
    have hps : pyStripS "" = "" := by decide
    rw [if_pos hps, flushBuf]
    simp only [joinNL]
    rw [hstA, if_neg ha2]
    simp only [alAppend, if_pos rfl]
    rfl
  rw [h2]
  have h3 : procLine ⟨[("1", [a])], "1", []⟩ ("1 " ++ b) = ⟨[("1", [a])], "1", [b]⟩ := by
    rw [procLine, matchHeader_hdr1 b hb1 hb2]
    rw [flushBuf_nilbuf]
    simp [alEnsure, hb2]
  rw [h3]
  rw [flushBuf]
  simp only [joinNL]
  rw [hb1, if_neg hb2]
  simp only [alAppend, if_pos rfl]
  rfl

/-- Witness for the amended claim C9 at concrete bodies. -/
theorem claim_C9_amended_witness :
    splitSectionsLines ["1 A", "", "1 B"] = [("1", ["A", "B"])] :=
  claim_C9_amended "A" "B" (by decide) (by decide) (by decide) (by decide)

/-! ### Claim C2, amended -/

theorem alEnsure_getD (m : SectionMap) (key k : String) :
    alGetD (alEnsure m key) k = alGetD m k := by
  induction m with
  | nil =>
    by_cases h : key = k <;> simp [alEnsure, alGetD, h]
  | cons p rest ih =>
    by_cases h : p.1 = key
    · simp [alEnsure, h]
    · by_cases h2 : p.1 = k
      · have hkk : ¬ k = key := fun hh => h (h2.trans hh)
        simp [alEnsure, alGetD, h, h2, hkk, ih]
      · simp [alEnsure, alGetD, h, h2, ih]

theorem alAppend_getD_self (m : SectionMap) (key : String) (para : String) :
    alGetD (alAppend m key para) key = alGetD m key ++ [para] := by
  induction m with
  | nil => simp [alAppend, alGetD]
  | cons p rest ih =>
    by_cases h : p.1 = key
    · simp [alAppend, alGetD, h]
    · simp [alAppend, alGetD, h, ih]

theorem alAppend_getD_ne (m : SectionMap) (key k : String) (para : String)
    (hne : k ≠ key) :
    alGetD (alAppend m key para) k = alGetD m k := by
  induction m with
  | nil => simp [alAppend, alGetD, Ne.symm hne]
  | cons p rest ih =>
    by_cases h : p.1 = key
    · have hpk : ¬ p.1 = k := by rw [h]; exact fun hh => hne hh.symm
      simp [alAppend, alGetD, h, hpk, Ne.symm hne]
    · by_cases h2 : p.1 = k <;> simp [alAppend, alGetD, h, h2, hne, ih]

theorem alAppend_getD_grow (m : SectionMap) (key k : String) (para : String) :
    ∃ ext, alGetD (alAppend m key para) k = alGetD m k ++ ext := by
  by_cases h : k = key
  · subst h
    exact ⟨[para], alAppend_getD_self m k para⟩
  · exact ⟨[], by rw [alAppend_getD_ne m key k para h, List.append_nil]⟩

theorem flushBuf_getD_grow (st : SState) (k : String) :
    ∃ ext, alGetD (flushBuf st).sections k = alGetD st.sections k ++ ext := by
  rw [flushBuf]
  by_cases h : pyStripS (joinNL st.buf) = ""
  · exact ⟨[], by simp only [if_pos h]; rw [List.append_nil]⟩
  · simp only [if_neg h]
    exact alAppend_getD_grow st.sections st.cur k (pyStripS (joinNL st.buf))

theorem procLine_getD_grow (st : SState) (line : String) (k : String) :
    ∃ ext, alGetD (procLine st line).sections k = alGetD st.sections k ++ ext := by
  rw [procLine]
  cases hmh : matchHeader line with
  | some p =>
    obtain ⟨key, rest⟩ := p
    obtain ⟨e1, he1⟩ := flushBuf_getD_grow st k
    refine ⟨e1, ?_⟩
    simp only
    rw [alEnsure_getD, he1]
  | none =>
    by_cases h : pyStripS line = ""
    · simp only [if_pos h]
      exact flushBuf_getD_grow st k
    · simp only [if_neg h]
      exact ⟨[], by rw [List.append_nil]⟩

theorem foldl_procLine_getD_grow (k : String) :
    ∀ (ls : List String) (st : SState),
      ∃ ext, alGetD (ls.foldl procLine st).sections k = alGetD st.sections k ++ ext := by
  intro ls
  induction ls with
  | nil => intro st; exact ⟨[], by rw [List.foldl_nil, List.append_nil]⟩
  | cons l rest ih =>
    intro st
    rw [List.foldl_cons]
    obtain ⟨e1, he1⟩ := procLine_getD_grow st l k
    obtain ⟨e2, he2⟩ := ih (procLine st l)
    exact ⟨e1 ++ e2, by rw [he2, he1, List.append_assoc]⟩

/-- Claim C2 amended: lines preceding the first valid section header are
NOT discarded; the paragraphs built from them are collected under the
default section key "0", and they remain a prefix of section "0"'s
paragraph list in the final output. -/
theorem claim_C2_amended (lines : List String)
    (hne : preParas (lines.takeWhile (fun l => (matchHeader l).isNone)) ≠ []) :
    ∃ rest,
      alGetD (splitSectionsLines lines) "0" =
        preParas (lines.takeWhile (fun l => (matchHeader l).isNone)) ++ rest := by
  set P : String → Bool := fun l => (matchHeader l).isNone with hP
  have hsplit : lines.takeWhile P ++ lines.dropWhile P = lines :=
    List.takeWhile_append_dropWhile P lines
  set S1 : SState := (lines.takeWhile P).foldl procLine ⟨[], "0", []⟩ with hS1
  have hfold : lines.foldl procLine ⟨[], "0", []⟩ =
      (lines.dropWhile P).foldl procLine S1 := by
    conv_lhs => rw [← hsplit]
    rw [List.foldl_append]
  rw [splitSectionsLines, hfold]
  cases hd : lines.dropWhile P with
  | nil =>
    refine ⟨[], ?_⟩
    rw [List.foldl_nil, List.append_nil]
    rfl
  | cons h t =>
    have hhead : P h = false := by
      have := List.head?_dropWhile_not P lines
      rw [hd] at this
      simpa using this
    have hsome : ∃ p, matchHeader h = some p := by
      rw [hP] at hhead
      simp only [Option.isNone_eq_false_iff, Option.isSome_iff_exists] at hhead
      exact hhead
    obtain ⟨⟨key, rest0⟩, hmh⟩ := hsome
    rw [List.foldl_cons]
    have hstep : alGetD (procLine S1 h).sections "0" =
        alGetD (flushBuf S1).sections "0" := by
      rw [procLine, hmh]
      simp only
      rw [alEnsure_getD]
    obtain ⟨e2, he2⟩ := foldl_procLine_getD_grow "0" t (procLine S1 h)
    obtain ⟨e3, he3⟩ := flushBuf_getD_grow (t.foldl procLine (procLine S1 h)) "0"
    refine ⟨e2 ++ e3, ?_⟩
    rw [he3, he2, hstep]
    rw [List.append_assoc]
    rfl

/-- Witness for the amended claim C2 at a concrete document whose first
line precedes any header. -/
theorem claim_C2_amended_witness :
    ∃ rest,
      alGetD (splitSectionsLines ["Hello", "", "1 Intro", "Body"]) "0" =
        preParas (["Hello", "", "1 Intro", "Body"].takeWhile
          (fun l => (matchHeader l).isNone)) ++ rest :=
  claim_C2_amended ["Hello", "", "1 Intro", "Body"] (by decide)

/-! ### Sorting lemmas -/

theorem orderedIns_mem (le : α → α → Bool) (x a : α) :
    ∀ (l : List α), a ∈ orderedIns le x l ↔ a = x ∨ a ∈ l := by
  intro l
  induction l with
  | nil => simp [orderedIns]
  | cons y rest ih =>
    by_cases h : le x y = true
    · simp only [orderedIns, if_pos h, List.mem_cons]
    · simp only [orderedIns, if_neg h, List.mem_cons, ih]
      tauto

theorem orderedIns_pairwise (le : α → α → Bool)
    (total : ∀ a b, le a b = true ∨ le b a = true)
    (ltrans : ∀ a b c, le a b = true → le b c = true → le a c = true)
    (x : α) :
    ∀ (l : List α), l.Pairwise (fun a b => le a b = true) →
      (orderedIns le x l).Pairwise (fun a b => le a b = true) := by
  intro l
  induction l with
  | nil => intro _; simp [orderedIns]
  | cons y rest ih =>
    intro hl
    rw [List.pairwise_cons] at hl
    by_cases h : le x y = true
    · rw [orderedIns, if_pos h, List.pairwise_cons]
      refine ⟨?_, List.pairwise_cons.mpr hl⟩
      intro a ha
      rw [List.mem_cons] at ha
      rcases ha with he | hm
      · rw [he]; exact h
      · exact ltrans x y a h (hl.1 a hm)
    · rw [orderedIns, if_neg h, List.pairwise_cons]
      refine ⟨?_, ih hl.2⟩
      intro a ha
      rw [orderedIns_mem] at ha
      rcases ha with he | hm
      · rw [he]
        rcases total x y with ht | ht
        · exact absurd ht h
        · exact ht
      · exact hl.1 a hm

theorem insSort_pairwise (le : α → α → Bool)
    (total : ∀ a b, le a b = true ∨ le b a = true)
    (ltrans : ∀ a b c, le a b = true → le b c = true → le a c = true) :
    ∀ (l : List α), (insSort le l).Pairwise (fun a b => le a b = true) := by
  intro l
  induction l with
  | nil => simp [insSort]
  | cons x rest ih =>
    rw [insSort]
    exact orderedIns_pairwise le total ltrans x (insSort le rest) ih

theorem orderedIns_perm (le : α → α → Bool) (x : α) :
    ∀ (l : List α), (orderedIns le x l).Perm (x :: l) := by
  intro l
  induction l with
  | nil => rw [orderedIns]
  | cons y rest ih =>
    by_cases h : le x y = true
    · rw [orderedIns, if_pos h]
    · rw [orderedIns, if_neg h]
      exact List.Perm.trans (ih.cons y) (List.Perm.swap x y rest)

theorem insSort_perm (le : α → α → Bool) :
    ∀ (l : List α), (insSort le l).Perm l := by
  intro l
  induction l with
  | nil => rw [insSort]
  | cons x rest ih =>
    rw [insSort]
    exact (orderedIns_perm le x (insSort le rest)).trans (ih.cons x)

theorem orderedIns_of_le (le : α → α → Bool) (x : α) :
    ∀ (l : List α), (∀ a ∈ l, le x a = true) → orderedIns le x l = x :: l := by
  intro l hl
  cases l with
  | nil => rfl
  | cons y rest =>
    rw [orderedIns, if_pos (hl y (List.mem_cons_self y rest))]

theorem insSort_of_pairwise (le : α → α → Bool) :
    ∀ (l : List α), l.Pairwise (fun a b => le a b = true) → insSort le l = l := by
  intro l
  induction l with
  | nil => intro _; rfl
  | cons x rest ih =>
    intro hl
    rw [List.pairwise_cons] at hl
    rw [insSort, ih hl.2]
    exact orderedIns_of_le le x rest hl.1

/-! ### Lexicographic order on segment lists -/

theorem lexLe_total : ∀ (x y : List Nat), lexLe x y = true ∨ lexLe y x = true := by
  intro x
  induction x with
  | nil => intro y; left; rw [lexLe]
  | cons a xs ih =>
    intro y
    cases y with
    | nil => right; rw [lexLe]
    | cons b ys =>
      rcases Nat.lt_trichotomy a b with h | h | h
      · left
        rw [lexLe, if_pos h]
      · subst h
        rcases ih ys with hh | hh
        · left
          rw [lexLe, if_neg (Nat.lt_irrefl a), if_neg (Nat.lt_irrefl a)]
          exact hh
        · right
          rw [lexLe, if_neg (Nat.lt_irrefl a), if_neg (Nat.lt_irrefl a)]
          exact hh
      · right
        rw [lexLe, if_pos h]

theorem lexLe_trans :
    ∀ (x y z : List Nat), lexLe x y = true → lexLe y z = true → lexLe x z = true := by
  intro x
  induction x with
  | nil => intro y z _ _; rw [lexLe]
  | cons a xs ih =>
    intro y z hxy hyz
    cases y with
    | nil => rw [lexLe] at hxy; exact absurd hxy (by decide)
    | cons b ys =>
      cases z with
      | nil => rw [lexLe] at hyz; exact absurd hyz (by decide)
      | cons c zs =>
        rw [lexLe] at hxy hyz ⊢
        by_cases hab : a < b
        · rw [if_pos hab] at hxy
          by_cases hbc : b < c
          · rw [if_pos (Nat.lt_trans hab hbc)]
          · rw [if_neg hbc] at hyz
            by_cases hcb : c < b
            · rw [if_pos hcb] at hyz; exact absurd hyz (by decide)
            · have hbc2 : b = c := by omega
              rw [if_pos (hbc2 ▸ hab)]
        · rw [if_neg hab] at hxy
          by_cases hba : b < a
          · rw [if_pos hba] at hxy; exact absurd hxy (by decide)
          · have hab2 : a = b := by omega
            rw [if_neg hba] at hxy
            by_cases hbc : b < c
            · rw [if_pos (hab2 ▸ hbc)]
            · rw [if_neg hbc] at hyz
              by_cases hcb : c < b
              · rw [if_pos hcb] at hyz; exact absurd hyz (by decide)
              · have hbc2 : b = c := by omega
                rw [if_neg hcb] at hyz
                rw [if_neg (by omega : ¬ a < c), if_neg (by omega : ¬ c < a)]
                exact ih ys zs hxy hyz

theorem keyLe_total : ∀ (s1 s2 : String), keyLe s1 s2 = true ∨ keyLe s2 s1 = true := by
  intro s1 s2
  rw [keyLe, keyLe]
  exact lexLe_total (segs s1) (segs s2)

theorem keyLe_trans :
    ∀ (s1 s2 s3 : String), keyLe s1 s2 = true → keyLe s2 s3 = true →
      keyLe s1 s3 = true := by
  intro s1 s2 s3 h1 h2
  rw [keyLe] at h1 h2 ⊢
  exact lexLe_trans (segs s1) (segs s2) (segs s3) h1 h2

/-! ### Claim C6, amended -/

/-- Claim C6 amended: the sections of the detected change sequence appear
in NON-DECREASING order of their integer-segment sequences (keys split on
'.', segments compared as integers left to right, a strict prefix sorting
first).  For keys with distinct segment sequences this gives "a precedes b
iff a's segments are lexicographically smaller"; distinct keys with equal
segment sequences (leading zeros) tie and may appear in either order, so
the iff of the original claim holds only up to such ties. -/
theorem claim_C6_amended (oldT newT : String) :
    ((detect_paragraph_section_changes oldT newT).map Prod.fst).Pairwise
      (fun a b => lexLe (segs a) (segs b) = true) := by
  rw [detect_paragraph_section_changes]
  simp only [List.map_map]
  have hmap : (Prod.fst ∘ fun sec =>
      (sec, diff_paragraphs (alGetD (split_into_sections oldT) sec)
        (alGetD (split_into_sections newT) sec))) = id := by
    funext sec
    rfl
  rw [hmap, List.map_id, sortKeys]
  have := insSort_pairwise keyLe keyLe_total keyLe_trans
    (unionKeys ((split_into_sections oldT).map Prod.fst)
      ((split_into_sections newT).map Prod.fst))
  exact this.imp (fun h => h)

/-! ### The identity case of the sequence matcher

For identical inputs `find_longest_match` finds the full diagonal: the
inner table always holds the diagonal run, no off-diagonal run can beat
it, so the final best triple is `(0, 0, n)` and the opcodes reduce to one
`equal` block. -/

theorem innerFold_best_const (i : Nat) (J : Nat → Nat) :
    ∀ (js : List Nat) (W : Nat → Nat) (B : FlmBest),
      (∀ j ∈ js, (if j = 0 then 0 else J (j - 1)) + 1 ≤ B.bestsize) →
      (js.foldl (innerStep i J) (W, B)).2 = B := by
  intro js
  induction js with
  | nil => intro W B _; rfl
  | cons j js ih =>
    intro W B hjs
    rw [List.foldl_cons]
    have hstep : (innerStep i J (W, B) j).2 = B := by
      rw [innerStep]
      simp only
      rw [if_neg (by have := hjs j (List.mem_cons_self j js); omega)]
    rw [ih (innerStep i J (W, B) j).1 (innerStep i J (W, B) j).2
      (fun j2 hj2 => by rw [hstep]; exact hjs j2 (List.mem_cons_of_mem j hj2))]
    exact hstep

theorem innerFold_table (i : Nat) (J : Nat → Nat) :
    ∀ (js : List Nat), js.Nodup → ∀ (W : Nat → Nat) (B : FlmBest) (j2 : Nat),
      (js.foldl (innerStep i J) (W, B)).1 j2 =
        if j2 ∈ js then (if j2 = 0 then 0 else J (j2 - 1)) + 1 else W j2 := by
  intro js
  induction js with
  | nil => intro _ W B j2; simp
  | cons j js ih =>
    intro hnd W B j2
    rw [List.nodup_cons] at hnd
    rw [List.foldl_cons, ih hnd.2 _ _ j2]
    by_cases hmem : j2 ∈ js
    · rw [if_pos hmem, if_pos (List.mem_cons_of_mem j hmem)]
    · rw [if_neg hmem]
      have hW : (innerStep i J (W, B) j).1 j2 =
          if j2 = j then (if j = 0 then 0 else J (j - 1)) + 1 else W j2 := by
        rw [innerStep]
      rw [hW]
      by_cases he : j2 = j
      · subst he
        rw [if_pos rfl, if_pos (List.mem_cons_self j2 js)]
      · rw [if_neg he,
          if_neg (by rw [List.mem_cons]; exact fun hh => hh.elim he hmem)]

/-- The identity-case invariant of the inner table after `r` rows. -/
def IdInv (r : Nat) (J : Nat → Nat) : Prop :=
  (∀ j, J j ≤ j + 1) ∧ (∀ j, J j ≤ r) ∧ (0 < r → J (r - 1) = r)

theorem b2j_self_split (l : List String) (r : Nat) (hr : r < l.length) :
    b2j l (l.getD r "") =
      (List.range r).filter (fun j => l.getD j "" == l.getD r "") ++
      r :: (List.range' (r + 1) (l.length - (r + 1))).filter
        (fun j => l.getD j "" == l.getD r "") := by
  rw [b2j, List.range_eq_range']
  have hsum : List.range' 0 l.length =
      List.range' 0 r ++ List.range' r (l.length - r) := by
    have h := List.range'_append 0 r (l.length - r) 1
    simp only [Nat.one_mul, Nat.zero_add] at h
    rw [show l.length - r + r = l.length from by omega] at h
    exact h.symm
  rw [hsum, List.filter_append]
  have hcons : List.range' r (l.length - r) = r :: List.range' (r + 1) (l.length - (r + 1)) := by
    have he : l.length - r = (l.length - (r + 1)) + 1 := by omega
    rw [he, List.range'_succ]
  rw [hcons, List.filter_cons, if_pos (by simp), List.range_eq_range']

theorem idRow (l : List String) (r : Nat) (hr : r < l.length)
    (J : Nat → Nat) (hJ : IdInv r J) :
    IdInv (r + 1) (rowStep l l 0 l.length (J, ⟨0, 0, r⟩) r).1 ∧
    (rowStep l l 0 l.length (J, ⟨0, 0, r⟩) r).2 = ⟨0, 0, r + 1⟩ := by
  obtain ⟨hJ1, hJ2, hJ3⟩ := hJ
  rw [rowStep]
  simp only
  have hfilter : (b2j l (l.getD r "")).filter
      (fun j => decide (0 ≤ j) && decide (j < l.length)) = b2j l (l.getD r "") := by
    rw [List.filter_eq_self]
    intro j hj
    rw [b2j, List.mem_filter, List.mem_range] at hj
    simp only [Bool.and_eq_true, decide_eq_true_eq]
    exact ⟨Nat.zero_le j, hj.1⟩
  rw [hfilter, b2j_self_split l r hr]
  set Q : Nat → Bool := fun j => l.getD j "" == l.getD r "" with hQ
  set pre := (List.range r).filter Q with hpre
  set post := (List.range' (r + 1) (l.length - (r + 1))).filter Q with hpost
  have hprelt : ∀ j ∈ pre, j < r := by
    intro j hj
    rw [hpre, List.mem_filter, List.mem_range] at hj
    exact hj.1
  have hpostgt : ∀ j ∈ post, r < j := by
    intro j hj
    rw [hpost, List.mem_filter, List.mem_range'] at hj
    obtain ⟨⟨t, _, hteq⟩, _⟩ := hj
    omega
  -- decompose the fold: pre, then the diagonal element, then post
  rw [List.foldl_append, List.foldl_cons]
  -- the pre part leaves the best triple unchanged
  have hpreB : ((pre.foldl (innerStep r J) (fun _ => 0, ⟨0, 0, r⟩))).2 = ⟨0, 0, r⟩ := by
    apply innerFold_best_const
    intro j hj
    have hjr := hprelt j hj
    by_cases h0 : j = 0
    · rw [if_pos h0]
      simp only
      omega
    · rw [if_neg h0]
      have := hJ1 (j - 1)
      simp only
      omega
  -- the diagonal step raises the best to (0, 0, r+1)
  have hkdiag : (if r = 0 then 0 else J (r - 1)) + 1 = r + 1 := by
    by_cases h0 : r = 0
    · rw [if_pos h0, h0]
    · rw [if_neg h0, hJ3 (Nat.pos_of_ne_zero h0)]
  have hdiagstep :
      innerStep r J (pre.foldl (innerStep r J) (fun _ => 0, ⟨0, 0, r⟩)) r =
        ((innerStep r J (pre.foldl (innerStep r J) (fun _ => 0, ⟨0, 0, r⟩)) r).1,
         ⟨0, 0, r + 1⟩) := by
    have hbest : (innerStep r J (pre.foldl (innerStep r J) (fun _ => 0, ⟨0, 0, r⟩)) r).2 =
        ⟨0, 0, r + 1⟩ := by
      rw [innerStep]
      simp only [hpreB, hkdiag]
      rw [if_pos (Nat.lt_succ_self r)]
      simp
    rw [← hbest]
  rw [hdiagstep]
  -- the post part leaves the best triple unchanged again
  have hpostB :
      ((post.foldl (innerStep r J)
        ((innerStep r J (pre.foldl (innerStep r J) (fun _ => 0, ⟨0, 0, r⟩)) r).1,
         ⟨0, 0, r + 1⟩))).2 = ⟨0, 0, r + 1⟩ := by
    apply innerFold_best_const
    intro j hj
    have hjr := hpostgt j hj
    have h0 : ¬ j = 0 := by omega
    rw [if_neg h0]
    have := hJ2 (j - 1)
    simp only
    omega
  refine ⟨?_, hpostB⟩
  -- table invariant after the full row
  have hnd : (pre ++ r :: post).Nodup := by
    rw [← b2j_self_split l r hr, b2j]
    exact (List.nodup_range l.length).filter Q
  have htable := innerFold_table r J (pre ++ r :: post) hnd (fun _ => 0) ⟨0, 0, r⟩
  rw [List.foldl_append, List.foldl_cons, hdiagstep] at htable
  refine ⟨?_, ?_, ?_⟩
  · intro j
    rw [htable j]
    by_cases hm : j ∈ pre ++ r :: post
    · rw [if_pos hm]
      by_cases h0 : j = 0
      · rw [if_pos h0]; omega
      · rw [if_neg h0]
        have := hJ1 (j - 1)
        omega
    · rw [if_neg hm]
      omega
  · intro j
    rw [htable j]
    by_cases hm : j ∈ pre ++ r :: post
    · rw [if_pos hm]
      by_cases h0 : j = 0
      · rw [if_pos h0]; omega
      · rw [if_neg h0]
        have := hJ2 (j - 1)
        omega
    · rw [if_neg hm]
      omega
  · intro _
    have hrm : r ∈ pre ++ r :: post := by
      rw [List.mem_append, List.mem_cons]
      exact Or.inr (Or.inl rfl)
    rw [Nat.add_sub_cancel, htable r, if_pos hrm, hkdiag]

theorem flmCore_identity (l : List String) :
    flmCore l l 0 l.length 0 l.length = ⟨0, 0, l.length⟩ := by
  rw [flmCore, Nat.sub_zero]
  have hfold : ∀ r, r ≤ l.length →
      IdInv r ((List.range' 0 r).foldl (rowStep l l 0 l.length)
        (fun _ => 0, ⟨0, 0, 0⟩)).1 ∧
      ((List.range' 0 r).foldl (rowStep l l 0 l.length)
        (fun _ => 0, ⟨0, 0, 0⟩)).2 = ⟨0, 0, r⟩ := by
    intro r
    induction r with
    | zero =>
      intro _
      exact ⟨⟨fun j => Nat.zero_le _, fun j => Nat.le_refl 0, fun h => absurd h (by omega)⟩,
        rfl⟩
    | succ c ih =>
      intro hle
      obtain ⟨hJ, hB⟩ := ih (by omega)
      rw [List.range'_1_concat, List.foldl_append, List.foldl_cons, List.foldl_nil]
      have hst : (List.range' 0 c).foldl (rowStep l l 0 l.length)
          (fun _ => 0, ⟨0, 0, 0⟩) =
          (((List.range' 0 c).foldl (rowStep l l 0 l.length)
            (fun _ => 0, ⟨0, 0, 0⟩)).1, ⟨0, 0, c⟩) := by
        rw [← hB]
      rw [Nat.zero_add, hst]
      exact idRow l c (by omega) _ hJ
  exact (hfold l.length (Nat.le_refl _)).2

theorem flm_identity (l : List String) :
    find_longest_match l l 0 l.length 0 l.length = ⟨0, 0, l.length⟩ := by
  rw [find_longest_match, flmCore_identity]
  rw [extendLeft]
  simp only
  rw [extendLeftF]
  rw [extendRight]
  simp only
  rw [Nat.zero_add, Nat.sub_self]
  rw [extendRightF]

theorem diff_paragraphs_identity (l : List String) :
    diff_paragraphs l l = emptyChange := by
  have hmb : matchingBlocksRec l l 0 l.length 0 l.length =
      if l.length = 0 then [] else [⟨0, 0, l.length⟩] := by
    by_cases hn : l.length = 0
    · rw [if_pos hn, matchingBlocksRec, Nat.sub_zero, hn, mbRecF]
    · rw [if_neg hn]
      obtain ⟨m, hm⟩ : ∃ m, l.length = m + 1 := ⟨l.length - 1, by omega⟩
      have hflm := flm_identity l
      rw [matchingBlocksRec, Nat.sub_zero]
      rw [hm] at hflm ⊢
      rw [mbRecF]
      simp only [hflm]
      rw [if_neg (by simp)]
      rw [if_neg (by simp), if_neg (by simp)]
      simp
  rw [diff_paragraphs, get_opcodes, get_matching_blocks, hmb]
  by_cases hn : l.length = 0
  · rw [if_pos hn, hn]
    rw [show insSort blockLe ([] : List FlmBest) = [] from rfl]
    rw [show nonAdjacent [] ⟨0, 0, 0⟩ ([] : List FlmBest) = [] by rw [nonAdjacent]; simp]
    rw [List.nil_append]
    have hops : opcodesAux 0 0 [(⟨0, 0, 0⟩ : FlmBest)] = [] := by
      simp [opcodesAux]
    rw [hops]
    rfl
  · rw [if_neg hn]
    rw [show insSort blockLe [(⟨0, 0, l.length⟩ : FlmBest)] = [⟨0, 0, l.length⟩] from rfl]
    have hna : nonAdjacent [] ⟨0, 0, 0⟩ [(⟨0, 0, l.length⟩ : FlmBest)] =
        [⟨0, 0, l.length⟩] := by
      rw [nonAdjacent]
      rw [if_pos (by constructor <;> rfl)]
      rw [nonAdjacent]
      simp only [Nat.zero_add]
      rw [if_pos hn]
      rfl
    rw [hna]
    have hops : opcodesAux 0 0 [(⟨0, 0, l.length⟩ : FlmBest), ⟨l.length, l.length, 0⟩] =
        [⟨"equal", 0, l.length, 0, l.length⟩] := by
      simp [opcodesAux, hn]
    rw [show ([(⟨0, 0, l.length⟩ : FlmBest)] ++ [(⟨l.length, l.length, 0⟩ : FlmBest)]) =
      [(⟨0, 0, l.length⟩ : FlmBest), ⟨l.length, l.length, 0⟩] from rfl, hops]
    rfl

/-! ### Claim C8 -/

theorem flatten_changes_of_empty :
    ∀ (raw : List (String × Change)) (acc : List PyDict),
      (∀ e ∈ raw, e.2 = emptyChange) →
      raw.foldl (fun out e => out ++ sectionRecords e.1 e.2) acc = acc := by
  intro raw
  induction raw with
  | nil => intro acc _; rfl
  | cons e rest ih =>
    intro acc hall
    rw [List.foldl_cons]
    have he : e.2 = emptyChange := hall e (List.mem_cons_self e rest)
    rw [he]
    rw [show sectionRecords e.1 emptyChange = [] from rfl, List.append_nil]
    exact ih acc (fun e2 he2 => hall e2 (List.mem_cons_of_mem e he2))

/-- Claim C8: comparing any document with itself yields an empty flat
change list; the analyze endpoint then returns the plain empty-changes
response and, in particular for the empty input pair, never invokes the
analyzer. -/
theorem claim_C8 (A : String) (oracle : Nat → Except String PyDict) :
    flatten_changes (detect_paragraph_section_changes A A) = [] ∧
    analyze A A oracle = (.jsonEmpty, []) ∧
    analyze "" "" oracle = (.jsonEmpty, []) := by
  have hflat : flatten_changes (detect_paragraph_section_changes A A) = [] := by
    rw [flatten_changes]
    apply flatten_changes_of_empty
    intro e he
    rw [detect_paragraph_section_changes] at he
    rw [List.mem_map] at he
    obtain ⟨sec, _, heq⟩ := he
    have h2 : e.2 = diff_paragraphs (alGetD (split_into_sections A) sec)
        (alGetD (split_into_sections A) sec) := by
      rw [← heq]
    rw [h2]
    exact diff_paragraphs_identity _
  refine ⟨hflat, ?_, ?_⟩
  · simp only [analyze, hflat]
    rfl
  · have h0 : flatten_changes (detect_paragraph_section_changes "" "") = [] := by decide
    simp only [analyze, h0]
    rfl

/-! ### One-sided diffs -/

/-- The leftward extension loop does nothing once its guard fails. -/
theorem extendLeftF_stuck (a b : List String) (alo blo : Nat) (fuel : Nat)
    (m : FlmBest) (h : ¬ alo < m.besti) :
    extendLeftF a b alo blo fuel m = m := by
  cases fuel with
  | zero => rfl
  | succ f =>
    rw [extendLeftF, if_neg (fun hh => h hh.1)]

/-- The rightward extension loop does nothing once its `a`-side guard
fails. -/
theorem extendRightF_stuck (a b : List String) (ahi bhi : Nat) (fuel : Nat)
    (m : FlmBest) (h : ¬ m.besti + m.bestsize < ahi) :
    extendRightF a b ahi bhi fuel m = m := by
  cases fuel with
  | zero => rfl
  | succ f =>
    rw [extendRightF, if_neg (fun hh => h hh.1)]

/-- The rightward extension loop does nothing once its `b`-side guard
fails. -/
theorem extendRightF_stuck_b (a b : List String) (ahi bhi : Nat) (fuel : Nat)
    (m : FlmBest) (h : ¬ m.bestj + m.bestsize < bhi) :
    extendRightF a b ahi bhi fuel m = m := by
  cases fuel with
  | zero => rfl
  | succ f =>
    rw [extendRightF, if_neg (fun hh => h hh.2.1)]

/-- Matching an empty `a` side yields the trivial match. -/
theorem flm_nil_left (b : List String) (bhi : Nat) :
    find_longest_match [] b 0 0 0 bhi = ⟨0, 0, 0⟩ := rfl

/-- Matching an empty `b` side yields the trivial match. -/
theorem flm_nil_right (a : List String) (alo ahi : Nat) :
    find_longest_match a [] alo ahi 0 0 = ⟨alo, 0, 0⟩ := by
  have hrow : ∀ (i : Nat) (st : (Nat → Nat) × FlmBest),
      rowStep a [] 0 0 st i = (fun _ => 0, st.2) := fun _ _ => rfl
  have hfold : ∀ (rows : List Nat) (st : (Nat → Nat) × FlmBest),
      (rows.foldl (rowStep a [] 0 0) st).2 = st.2 := by
    intro rows
    induction rows with
    | nil => intro st; rfl
    | cons r rows ih =>
      intro st
      rw [List.foldl_cons, hrow r st]
      exact ih _
  have hcore : flmCore a [] alo ahi 0 0 = ⟨alo, 0, 0⟩ := by
    rw [flmCore]
    exact hfold _ _
  rw [find_longest_match, hcore, extendLeft]
  rw [extendLeftF_stuck a [] alo 0 _ _ (by simp)]
  rw [extendRight]
  exact extendRightF_stuck_b a [] ahi 0 _ _ (by simp)

/-- Diffing from an empty paragraph list adds every new paragraph. -/
theorem diff_nil_left (l : List String) :
    diff_paragraphs [] l = ⟨enumSlice l 0 l.length, [], []⟩ := by
  have hmb : matchingBlocksRec [] l 0 0 0 l.length = [] := by
    rw [matchingBlocksRec, Nat.sub_self, mbRecF]
  rw [diff_paragraphs, get_opcodes, get_matching_blocks]
  rw [show ([] : List String).length = 0 from rfl, hmb]
  rw [show insSort blockLe ([] : List FlmBest) = [] from rfl]
  rw [show nonAdjacent [] ⟨0, 0, 0⟩ ([] : List FlmBest) = [] by rw [nonAdjacent]; simp]
  rw [List.nil_append]
  by_cases hn : l.length = 0
  · rw [hn]
    rw [show opcodesAux 0 0 [(⟨0, 0, 0⟩ : FlmBest)] = [] by simp [opcodesAux]]
    rw [List.foldl_nil]
    have hl : l = [] := List.length_eq_zero.mp hn
    rw [hl]
    rfl
  · have hops : opcodesAux 0 0 [(⟨0, l.length, 0⟩ : FlmBest)] =
        [⟨"insert", 0, 0, 0, l.length⟩] := by
      rw [opcodesAux]
      rw [if_neg (by simp), if_neg (by simp),
        if_pos (show (0 : Nat) < l.length by omega)]
      rw [if_neg (by simp)]
      rw [opcodesAux]
      rfl
    rw [hops, List.foldl_cons, List.foldl_nil]
    simp [diffStep, emptyChange, enumSlice]

/-- Diffing to an empty paragraph list removes every old paragraph. -/
theorem diff_nil_right (l : List String) :
    diff_paragraphs l [] = ⟨[], enumSlice l 0 l.length, []⟩ := by
  have hmb : matchingBlocksRec l [] 0 l.length 0 0 = [] := by
    rw [matchingBlocksRec, Nat.sub_zero]
    cases hn : l.length with
    | zero => rw [mbRecF]
    | succ k =>
      rw [mbRecF]
      simp [flm_nil_right l 0 (k + 1)]
  rw [diff_paragraphs, get_opcodes, get_matching_blocks]
  rw [show ([] : List String).length = 0 from rfl, hmb]
  rw [show insSort blockLe ([] : List FlmBest) = [] from rfl]
  rw [show nonAdjacent [] ⟨0, 0, 0⟩ ([] : List FlmBest) = [] by rw [nonAdjacent]; simp]
  rw [List.nil_append]
  by_cases hn : l.length = 0
  · rw [hn]
    rw [show opcodesAux 0 0 [(⟨0, 0, 0⟩ : FlmBest)] = [] by simp [opcodesAux]]
    rw [List.foldl_nil]
    have hl : l = [] := List.length_eq_zero.mp hn
    rw [hl]
    rfl
  · have hops : opcodesAux 0 0 [(⟨l.length, 0, 0⟩ : FlmBest)] =
        [⟨"delete", 0, l.length, 0, 0⟩] := by
      rw [opcodesAux]
      rw [if_neg (by simp), if_pos (show (0 : Nat) < l.length by omega)]
      rw [if_neg (by simp)]
      rw [opcodesAux]
      rfl
    rw [hops, List.foldl_cons, List.foldl_nil]
    simp [diffStep, emptyChange, enumSlice]

/-! ### Chained blocks -/

theorem chained_append (l1 : List FlmBest) : ∀ (l2 : List FlmBest) (i j : Nat),
    Chained i j (l1 ++ l2) ↔
      Chained i j l1 ∧ Chained (chainEnd i j l1).1 (chainEnd i j l1).2 l2 := by
  induction l1 with
  | nil =>
    intro l2 i j
    constructor
    · intro h
      exact ⟨trivial, h⟩
    · intro h
      exact h.2
  | cons blk rest ih =>
    intro l2 i j
    constructor
    · rintro ⟨h1, h2, h3⟩
      obtain ⟨h4, h5⟩ := (ih l2 _ _).mp h3
      exact ⟨⟨h1, h2, h4⟩, h5⟩
    · rintro ⟨⟨h1, h2, h4⟩, h5⟩
      exact ⟨h1, h2, (ih l2 _ _).mpr ⟨h4, h5⟩⟩

theorem chained_mem_lower (l : List FlmBest) : ∀ (i j : Nat), Chained i j l →
    ∀ blk ∈ l, i ≤ blk.besti ∧ j ≤ blk.bestj := by
  induction l with
  | nil =>
    intro i j _ blk hblk
    exact absurd hblk (List.not_mem_nil blk)
  | cons b rest ih =>
    rintro i j ⟨h1, h2, h3⟩ blk hblk
    rcases List.mem_cons.mp hblk with heq | hmem
    · rw [heq]
      exact ⟨h1, h2⟩
    · have := ih _ _ h3 blk hmem
      exact ⟨by omega, by omega⟩

theorem chainEnd_le (l : List FlmBest) : ∀ (i j la lb : Nat), i ≤ la → j ≤ lb →
    (∀ blk ∈ l, blk.besti + blk.bestsize ≤ la ∧ blk.bestj + blk.bestsize ≤ lb) →
    (chainEnd i j l).1 ≤ la ∧ (chainEnd i j l).2 ≤ lb := by
  induction l with
  | nil =>
    intro i j la lb h1 h2 _
    exact ⟨h1, h2⟩
  | cons b rest ih =>
    intro i j la lb h1 h2 hall
    have hb := hall b (List.mem_cons_self b rest)
    exact ih _ _ la lb hb.1 hb.2
      (fun blk hblk => hall blk (List.mem_cons_of_mem b hblk))

/-- Every block collected by the recursion has positive size, lies inside
its window, and its covered elements agree. -/
theorem mbRec_wf (a b : List String) : ∀ (fuel alo ahi blo bhi : Nat),
    ∀ blk ∈ mbRecF a b fuel alo ahi blo bhi,
      0 < blk.bestsize ∧ alo ≤ blk.besti ∧ blk.besti + blk.bestsize ≤ ahi ∧
      blo ≤ blk.bestj ∧ blk.bestj + blk.bestsize ≤ bhi ∧ SliceEq a b blk := by
  intro fuel
  induction fuel with
  | zero =>
    intro alo ahi blo bhi blk hblk
    rw [mbRecF] at hblk
    exact absurd hblk (List.not_mem_nil blk)
  | succ f ih =>
    intro alo ahi blo bhi blk hblk
    simp only [mbRecF] at hblk
    by_cases hsz : (find_longest_match a b alo ahi blo bhi).bestsize = 0
    · rw [if_pos hsz] at hblk
      exact absurd hblk (List.not_mem_nil blk)
    · rw [if_neg hsz] at hblk
      rcases flm_spec a b alo ahi blo bhi with htriv | ⟨h1, h2, h3, h4, h5, h6⟩
      · exact absurd (by rw [htriv]) hsz
      rw [List.mem_append, List.mem_cons] at hblk
      rcases hblk with hL | heq | hR
      · by_cases hg : alo < (find_longest_match a b alo ahi blo bhi).besti ∧
            blo < (find_longest_match a b alo ahi blo bhi).bestj
        · rw [if_pos hg] at hL
          obtain ⟨p1, p2, p3, p4, p5, p6⟩ := ih _ _ _ _ blk hL
          exact ⟨p1, p2, by omega, p4, by omega, p6⟩
        · rw [if_neg hg] at hL
          exact absurd hL (List.not_mem_nil blk)
      · rw [heq]
        exact ⟨h3, h1, h4, h2, h5, h6⟩
      · by_cases hg : (find_longest_match a b alo ahi blo bhi).besti +
              (find_longest_match a b alo ahi blo bhi).bestsize < ahi ∧
            (find_longest_match a b alo ahi blo bhi).bestj +
              (find_longest_match a b alo ahi blo bhi).bestsize < bhi
        · rw [if_pos hg] at hR
          obtain ⟨p1, p2, p3, p4, p5, p6⟩ := ih _ _ _ _ blk hR
          exact ⟨p1, by omega, p3, by omega, p5, p6⟩
        · rw [if_neg hg] at hR
          exact absurd hR (List.not_mem_nil blk)

/-- The blocks collected by the recursion are chained from the window
origin. -/
theorem mbRec_chained (a b : List String) : ∀ (fuel alo ahi blo bhi : Nat),
    Chained alo blo (mbRecF a b fuel alo ahi blo bhi) := by
  intro fuel
  induction fuel with
  | zero =>
    intro alo ahi blo bhi
    rw [mbRecF]
    trivial
  | succ f ih =>
    intro alo ahi blo bhi
    simp only [mbRecF]
    by_cases hsz : (find_longest_match a b alo ahi blo bhi).bestsize = 0
    · rw [if_pos hsz]
      trivial
    · rw [if_neg hsz]
      rcases flm_spec a b alo ahi blo bhi with htriv | ⟨h1, h2, h3, h4, h5, h6⟩
      · exact absurd (by rw [htriv]) hsz
      rw [chained_append]
      by_cases hg : alo < (find_longest_match a b alo ahi blo bhi).besti ∧
          blo < (find_longest_match a b alo ahi blo bhi).bestj
      · rw [if_pos hg]
        refine ⟨ih _ _ _ _, ?_⟩
        have hend := chainEnd_le
          (mbRecF a b f alo (find_longest_match a b alo ahi blo bhi).besti
            blo (find_longest_match a b alo ahi blo bhi).bestj) alo blo
          (find_longest_match a b alo ahi blo bhi).besti
          (find_longest_match a b alo ahi blo bhi).bestj h1 h2
          (fun blk hblk =>
            ⟨(mbRec_wf a b f alo (find_longest_match a b alo ahi blo bhi).besti
                blo (find_longest_match a b alo ahi blo bhi).bestj blk hblk).2.2.1,
             (mbRec_wf a b f alo (find_longest_match a b alo ahi blo bhi).besti
                blo (find_longest_match a b alo ahi blo bhi).bestj
                blk hblk).2.2.2.2.1⟩)
        refine ⟨hend.1, hend.2, ?_⟩
        by_cases hg2 : (find_longest_match a b alo ahi blo bhi).besti +
              (find_longest_match a b alo ahi blo bhi).bestsize < ahi ∧
            (find_longest_match a b alo ahi blo bhi).bestj +
              (find_longest_match a b alo ahi blo bhi).bestsize < bhi
        · rw [if_pos hg2]
          exact ih _ _ _ _
        · rw [if_neg hg2]
          trivial
      · rw [if_neg hg]
        refine ⟨trivial, h1, h2, ?_⟩
        by_cases hg2 : (find_longest_match a b alo ahi blo bhi).besti +
              (find_longest_match a b alo ahi blo bhi).bestsize < ahi ∧
            (find_longest_match a b alo ahi blo bhi).bestj +
              (find_longest_match a b alo ahi blo bhi).bestsize < bhi
        · rw [if_pos hg2]
          exact ih _ _ _ _
        · rw [if_neg hg2]
          trivial

/-- Chained blocks of positive size are pairwise ordered under the sort
comparison, with strictly increasing `besti`. -/
theorem chained_pairwise (l : List FlmBest) : ∀ (i j : Nat), Chained i j l →
    (∀ blk ∈ l, 0 < blk.bestsize) →
    l.Pairwise (fun x y => blockLe x y = true) := by
  induction l with
  | nil =>
    intro i j _ _
    exact List.Pairwise.nil
  | cons b rest ih =>
    rintro i j ⟨h1, h2, h3⟩ hsz
    refine List.Pairwise.cons ?_ (ih _ _ h3
      (fun blk hblk => hsz blk (List.mem_cons_of_mem b hblk)))
    intro y hy
    have hlow := (chained_mem_lower rest _ _ h3 y hy).1
    have hszb := hsz b (List.mem_cons_self b rest)
    rw [blockLe, if_pos (show b.besti < y.besti by omega)]


theorem chainEnd_append (l1 : List FlmBest) : ∀ (l2 : List FlmBest) (i j : Nat),
    chainEnd i j (l1 ++ l2) =
      chainEnd (chainEnd i j l1).1 (chainEnd i j l1).2 l2 := by
  induction l1 with
  | nil => intro l2 i j; rfl
  | cons blk rest ih => intro l2 i j; exact ih l2 _ _

/-! ### Opcode structure -/

/-- Every opcode carries one of the four difflib tags, and the non-equal
tags only appear on a non-empty range of their side. -/
theorem opcodes_mem_tags : ∀ (blocks : List FlmBest) (i j : Nat) (op : Op),
    op ∈ opcodesAux i j blocks →
    op.tag = "equal" ∨
    (op.tag = "replace" ∧ op.i1 < op.i2 ∧ op.j1 < op.j2) ∨
    (op.tag = "delete" ∧ op.i1 < op.i2) ∨
    (op.tag = "insert" ∧ op.j1 < op.j2) := by
  intro blocks
  induction blocks with
  | nil =>
    intro i j op hop
    rw [opcodesAux] at hop
    exact absurd hop (List.not_mem_nil op)
  | cons blk rest ih =>
    intro i j op hop
    rw [opcodesAux, List.mem_append, List.mem_append] at hop
    rcases hop with (h1 | h2) | h3
    · by_cases hc1 : i < blk.besti ∧ j < blk.bestj
      · rw [if_pos hc1] at h1
        rw [List.mem_singleton] at h1
        rw [h1]
        exact Or.inr (Or.inl ⟨rfl, hc1.1, hc1.2⟩)
      · rw [if_neg hc1] at h1
        by_cases hc2 : i < blk.besti
        · rw [if_pos hc2] at h1
          rw [List.mem_singleton] at h1
          rw [h1]
          exact Or.inr (Or.inr (Or.inl ⟨rfl, hc2⟩))
        · rw [if_neg hc2] at h1
          by_cases hc3 : j < blk.bestj
          · rw [if_pos hc3] at h1
            rw [List.mem_singleton] at h1
            rw [h1]
            exact Or.inr (Or.inr (Or.inr ⟨rfl, hc3⟩))
          · rw [if_neg hc3] at h1
            exact absurd h1 (List.not_mem_nil op)
    · by_cases hc : blk.bestsize ≠ 0
      · rw [if_pos hc] at h2
        rw [List.mem_singleton] at h2
        rw [h2]
        exact Or.inl rfl
      · rw [if_neg hc] at h2
        exact absurd h2 (List.not_mem_nil op)
    · exact ih _ _ op h3

theorem recCount_diffStep_le (o n : List String) (c : Change) (op : Op) :
    recCount c ≤ recCount (diffStep o n c op) := by
  rw [diffStep]
  split
  · simp only [recCount, List.length_append]
    omega
  · split
    · simp only [recCount, List.length_append]
      omega
    · split
      · split
        · simp only [recCount, List.length_append]
          omega
        · split
          · simp only [recCount, List.length_append]
            omega
          · simp only [recCount, List.length_append]
            omega
      · exact Nat.le_refl _

/-- A non-equal opcode with a non-empty range strictly increases the
number of collected records. -/
theorem recCount_diffStep_lt (o n : List String) (c : Change) (op : Op)
    (h : (op.tag = "replace" ∧ op.i1 < op.i2 ∧ op.j1 < op.j2) ∨
         (op.tag = "delete" ∧ op.i1 < op.i2) ∨
         (op.tag = "insert" ∧ op.j1 < op.j2)) :
    recCount c < recCount (diffStep o n c op) := by
  rcases h with ⟨ht, hi, hj⟩ | ⟨ht, hi⟩ | ⟨ht, hj⟩
  · rw [diffStep, if_neg (by rw [ht]; decide), if_neg (by rw [ht]; decide),
      if_pos ht]
    have hz : 0 < min (op.i2 - op.i1) (op.j2 - op.j1) := by omega
    split
    · simp only [recCount, List.length_append, List.length_zip, enumSlice,
        List.length_map, List.length_range']
      omega
    · split
      · simp only [recCount, List.length_append, List.length_zip, enumSlice,
          List.length_map, List.length_range']
        omega
      · simp only [recCount, List.length_append, List.length_zip, enumSlice,
          List.length_map, List.length_range']
        omega
  · rw [diffStep, if_pos ht]
    simp only [recCount, List.length_append, enumSlice, List.length_map,
      List.length_range']
    omega
  · rw [diffStep, if_neg (by rw [ht]; decide), if_pos ht]
    simp only [recCount, List.length_append, enumSlice, List.length_map,
      List.length_range']
    omega

theorem recCount_foldl_le (o n : List String) : ∀ (ops : List Op) (c : Change),
    recCount c ≤ recCount (ops.foldl (diffStep o n) c) := by
  intro ops
  induction ops with
  | nil => intro c; exact Nat.le_refl _
  | cons op rest ih =>
    intro c
    rw [List.foldl_cons]
    exact Nat.le_trans (recCount_diffStep_le o n c op) (ih _)

/-- If the diff of two paragraph lists is empty, every opcode produced for
them is an `equal` opcode. -/
theorem diff_empty_all_equal (o n : List String)
    (h : diff_paragraphs o n = emptyChange) :
    ∀ op ∈ get_opcodes o n, op.tag = "equal" := by
  intro op hop
  by_contra hne
  have hwf : (op.tag = "replace" ∧ op.i1 < op.i2 ∧ op.j1 < op.j2) ∨
      (op.tag = "delete" ∧ op.i1 < op.i2) ∨
      (op.tag = "insert" ∧ op.j1 < op.j2) := by
    rcases opcodes_mem_tags (get_matching_blocks o n) 0 0 op hop with he | hw
    · exact absurd he hne
    · exact hw
  obtain ⟨s, t, hst⟩ := List.append_of_mem hop
  have h0 : recCount (diff_paragraphs o n) = 0 := by rw [h]; rfl
  rw [diff_paragraphs, hst, List.foldl_append, List.foldl_cons] at h0
  have hlt := recCount_diffStep_lt o n (s.foldl (diffStep o n) emptyChange) op hwf
  have hle := recCount_foldl_le o n t
    (diffStep o n (s.foldl (diffStep o n) emptyChange) op)
  omega

/-- The elements covered by an in-bounds agreeing block give equal list
slices. -/
theorem sliceEq_take (a b : List String) (blk : FlmBest)
    (hs : SliceEq a b blk) (ha : blk.besti + blk.bestsize ≤ a.length)
    (hb : blk.bestj + blk.bestsize ≤ b.length) :
    (a.drop blk.besti).take blk.bestsize =
      (b.drop blk.bestj).take blk.bestsize := by
  apply List.ext_getElem
  · rw [List.length_take, List.length_take, List.length_drop, List.length_drop]
    omega
  · intro m h1 h2
    have hm : m < blk.bestsize := by
      rw [List.length_take, List.length_drop] at h1
      omega
    rw [List.getElem_take, List.getElem_drop, List.getElem_take,
      List.getElem_drop]
    have hx := hs m hm
    rw [List.getD_eq_getElem a "" (by omega),
      List.getD_eq_getElem b "" (by omega)] at hx
    exact hx

/-- Walking a chained, in-bounds, sentinel-terminated block list whose
opcodes are all `equal` forces the remaining suffixes to agree. -/
theorem allEqual_drop (a b : List String) :
    ∀ (blocks : List FlmBest) (i j : Nat),
    Chained i j blocks →
    (∀ blk ∈ blocks, SliceEq a b blk ∧ blk.besti + blk.bestsize ≤ a.length ∧
      blk.bestj + blk.bestsize ≤ b.length) →
    blocks.getLast? = some ⟨a.length, b.length, 0⟩ →
    (∀ op ∈ opcodesAux i j blocks, op.tag = "equal") →
    a.drop i = b.drop j := by
  intro blocks
  induction blocks with
  | nil =>
    intro i j _ _ hlast _
    exact absurd hlast (by simp)
  | cons blk rest ih =>
    rintro i j ⟨h1, h2, h3⟩ hall hlast hops
    have hibi : ¬ i < blk.besti := by
      intro hlt
      by_cases hjb : j < blk.bestj
      · have hmem : (⟨"replace", i, blk.besti, j, blk.bestj⟩ : Op) ∈
            opcodesAux i j (blk :: rest) := by
          rw [opcodesAux, if_pos ⟨hlt, hjb⟩]
          exact List.mem_append_left _
            (List.mem_append_left _ (List.mem_singleton.mpr rfl))
        have := hops _ hmem
        simp at this
      · have hmem : (⟨"delete", i, blk.besti, j, blk.bestj⟩ : Op) ∈
            opcodesAux i j (blk :: rest) := by
          rw [opcodesAux, if_neg (fun hh => hjb hh.2), if_pos hlt]
          exact List.mem_append_left _
            (List.mem_append_left _ (List.mem_singleton.mpr rfl))
        have := hops _ hmem
        simp at this
    have hjbj : ¬ j < blk.bestj := by
      intro hlt
      have hmem : (⟨"insert", i, blk.besti, j, blk.bestj⟩ : Op) ∈
          opcodesAux i j (blk :: rest) := by
        rw [opcodesAux, if_neg (fun hh => hibi hh.1), if_neg hibi, if_pos hlt]
        exact List.mem_append_left _
          (List.mem_append_left _ (List.mem_singleton.mpr rfl))
      have := hops _ hmem
      simp at this
    have hieq : i = blk.besti := by omega
    have hjeq : j = blk.bestj := by omega
    have hops2 : ∀ op ∈ opcodesAux (blk.besti + blk.bestsize)
        (blk.bestj + blk.bestsize) rest, op.tag = "equal" := by
      intro op hop
      refine hops op ?_
      rw [opcodesAux]
      exact List.mem_append_right _ hop
    obtain ⟨hsl, hba, hbb⟩ := hall blk (List.mem_cons_self blk rest)
    cases rest with
    | nil =>
      rw [List.getLast?_singleton] at hlast
      have hblk : blk = ⟨a.length, b.length, 0⟩ := by
        exact Option.some.inj hlast
      rw [hieq, hjeq, hblk]
      rw [show (⟨a.length, b.length, 0⟩ : FlmBest).besti = a.length from rfl,
        show (⟨a.length, b.length, 0⟩ : FlmBest).bestj = b.length from rfl]
      rw [List.drop_length, List.drop_length]
    | cons r rest2 =>
      rw [List.getLast?_cons_cons] at hlast
      have hrest := ih _ _ h3
        (fun x hx => hall x (List.mem_cons_of_mem blk hx)) hlast hops2
      rw [hieq, hjeq]
      have hone := sliceEq_take a b blk hsl hba hbb
      calc a.drop blk.besti
          = (a.drop blk.besti).take blk.bestsize ++
            (a.drop blk.besti).drop blk.bestsize := by
            rw [List.take_append_drop]
        _ = (b.drop blk.bestj).take blk.bestsize ++
            (b.drop blk.bestj).drop blk.bestsize := by
            rw [hone, List.drop_drop, List.drop_drop, hrest]
        _ = b.drop blk.bestj := by
            rw [List.take_append_drop]

/-- The adjacent-block merging pass preserves chaining, in-bounds
positions, and slice agreement of the collected blocks. -/
theorem nonAdjacent_spec (a b : List String) (la lb : Nat) :
    ∀ (blocks : List FlmBest) (cur : FlmBest) (acc : List FlmBest) (p q : Nat),
    Chained (cur.besti + cur.bestsize) (cur.bestj + cur.bestsize) blocks →
    (∀ blk ∈ blocks, SliceEq a b blk ∧ blk.besti + blk.bestsize ≤ la ∧
      blk.bestj + blk.bestsize ≤ lb) →
    SliceEq a b cur → cur.besti + cur.bestsize ≤ la →
    cur.bestj + cur.bestsize ≤ lb →
    Chained p q acc →
    (∀ blk ∈ acc, SliceEq a b blk ∧ blk.besti + blk.bestsize ≤ la ∧
      blk.bestj + blk.bestsize ≤ lb) →
    (chainEnd p q acc).1 ≤ cur.besti → (chainEnd p q acc).2 ≤ cur.bestj →
    Chained p q (nonAdjacent acc cur blocks) ∧
    (∀ blk ∈ nonAdjacent acc cur blocks, SliceEq a b blk ∧
      blk.besti + blk.bestsize ≤ la ∧ blk.bestj + blk.bestsize ≤ lb) := by
  intro blocks
  induction blocks with
  | nil =>
    intro cur acc p q hch hall hcur hba hbb hacc haccm he1 he2
    rw [nonAdjacent]
    by_cases hk : cur.bestsize ≠ 0
    · rw [if_pos hk]
      constructor
      · rw [chained_append]
        exact ⟨hacc, he1, he2, trivial⟩
      · intro x hx
        rcases List.mem_append.mp hx with hx1 | hx2
        · exact haccm x hx1
        · rw [List.mem_singleton] at hx2
          rw [hx2]
          exact ⟨hcur, hba, hbb⟩
    · rw [if_neg hk]
      exact ⟨hacc, haccm⟩
  | cons blk rest ih =>
    intro cur acc p q hch hall hcur hba hbb hacc haccm he1 he2
    obtain ⟨hc1, hc2, hc3⟩ := hch
    obtain ⟨hbs, hba2, hbb2⟩ := hall blk (List.mem_cons_self blk rest)
    rw [nonAdjacent]
    by_cases hadj : cur.besti + cur.bestsize = blk.besti ∧
        cur.bestj + cur.bestsize = blk.bestj
    · rw [if_pos hadj]
      refine ih ⟨cur.besti, cur.bestj, cur.bestsize + blk.bestsize⟩ acc p q
        ?_ (fun x hx => hall x (List.mem_cons_of_mem blk hx)) ?_ ?_ ?_
        hacc haccm he1 he2
      · show Chained (cur.besti + (cur.bestsize + blk.bestsize))
          (cur.bestj + (cur.bestsize + blk.bestsize)) rest
        have e1 : cur.besti + (cur.bestsize + blk.bestsize) =
            blk.besti + blk.bestsize := by omega
        have e2 : cur.bestj + (cur.bestsize + blk.bestsize) =
            blk.bestj + blk.bestsize := by omega
        rw [e1, e2]
        exact hc3
      · intro t ht
        have ht' : t < cur.bestsize + blk.bestsize := ht
        show a.getD (cur.besti + t) "" = b.getD (cur.bestj + t) ""
        by_cases htc : t < cur.bestsize
        · exact hcur t htc
        · have e1 : cur.besti + t = blk.besti + (t - cur.bestsize) := by omega
          have e2 : cur.bestj + t = blk.bestj + (t - cur.bestsize) := by omega
          rw [e1, e2]
          exact hbs (t - cur.bestsize) (by omega)
      · show cur.besti + (cur.bestsize + blk.bestsize) ≤ la
        omega
      · show cur.bestj + (cur.bestsize + blk.bestsize) ≤ lb
        omega
    · rw [if_neg hadj]
      refine ih blk (if cur.bestsize ≠ 0 then acc ++ [cur] else acc) p q hc3
        (fun x hx => hall x (List.mem_cons_of_mem blk hx)) hbs hba2 hbb2
        ?_ ?_ ?_ ?_
      · by_cases hk : cur.bestsize ≠ 0
        · rw [if_pos hk, chained_append]
          exact ⟨hacc, he1, he2, trivial⟩
        · rw [if_neg hk]
          exact hacc
      · intro x hx
        by_cases hk : cur.bestsize ≠ 0
        · rw [if_pos hk] at hx
          rcases List.mem_append.mp hx with hx1 | hx2
          · exact haccm x hx1
          · rw [List.mem_singleton] at hx2
            rw [hx2]
            exact ⟨hcur, hba, hbb⟩
        · rw [if_neg hk] at hx
          exact haccm x hx
      · by_cases hk : cur.bestsize ≠ 0
        · rw [if_pos hk, chainEnd_append]
          show cur.besti + cur.bestsize ≤ blk.besti
          exact hc1
        · rw [if_neg hk]
          push_neg at hk
          omega
      · by_cases hk : cur.bestsize ≠ 0
        · rw [if_pos hk, chainEnd_append]
          show cur.bestj + cur.bestsize ≤ blk.bestj
          exact hc2
        · rw [if_neg hk]
          push_neg at hk
          omega

/-- Structure of `get_matching_blocks`: the produced blocks are chained
from the origin, in bounds with agreeing slices, and end with the
sentinel. -/
theorem gmb_spec (a b : List String) :
    Chained 0 0 (get_matching_blocks a b) ∧
    (∀ blk ∈ get_matching_blocks a b, SliceEq a b blk ∧
      blk.besti + blk.bestsize ≤ a.length ∧
      blk.bestj + blk.bestsize ≤ b.length) ∧
    (get_matching_blocks a b).getLast? = some ⟨a.length, b.length, 0⟩ := by
  have hraw_wf : ∀ blk ∈ matchingBlocksRec a b 0 a.length 0 b.length,
      0 < blk.bestsize ∧ 0 ≤ blk.besti ∧ blk.besti + blk.bestsize ≤ a.length ∧
      0 ≤ blk.bestj ∧ blk.bestj + blk.bestsize ≤ b.length ∧ SliceEq a b blk := by
    rw [matchingBlocksRec]
    exact mbRec_wf a b _ 0 a.length 0 b.length
  have hraw_ch : Chained 0 0 (matchingBlocksRec a b 0 a.length 0 b.length) := by
    rw [matchingBlocksRec]
    exact mbRec_chained a b _ 0 a.length 0 b.length
  have hsort : insSort blockLe (matchingBlocksRec a b 0 a.length 0 b.length) =
      matchingBlocksRec a b 0 a.length 0 b.length :=
    insSort_of_pairwise blockLe _
      (chained_pairwise _ 0 0 hraw_ch (fun blk hblk => (hraw_wf blk hblk).1))
  have hna := nonAdjacent_spec a b a.length b.length
    (matchingBlocksRec a b 0 a.length 0 b.length) ⟨0, 0, 0⟩ [] 0 0
    hraw_ch
    (fun blk hblk => ⟨(hraw_wf blk hblk).2.2.2.2.2, (hraw_wf blk hblk).2.2.1,
      (hraw_wf blk hblk).2.2.2.2.1⟩)
    (fun t ht => absurd ht (Nat.not_lt_zero t))
    (Nat.zero_le _) (Nat.zero_le _)
    trivial
    (fun x hx => absurd hx (List.not_mem_nil x))
    (Nat.le_refl 0) (Nat.le_refl 0)
  obtain ⟨hch, hmem⟩ := hna
  have hend := chainEnd_le
    (nonAdjacent [] ⟨0, 0, 0⟩ (matchingBlocksRec a b 0 a.length 0 b.length))
    0 0 a.length b.length (Nat.zero_le _) (Nat.zero_le _)
    (fun blk hblk => ⟨(hmem blk hblk).2.1, (hmem blk hblk).2.2⟩)
  rw [get_matching_blocks, hsort]
  refine ⟨?_, ?_, ?_⟩
  · rw [chained_append]
    exact ⟨hch, hend.1, hend.2, trivial⟩
  · intro blk hblk
    rcases List.mem_append.mp hblk with h1 | h2
    · exact hmem blk h1
    · rw [List.mem_singleton] at h2
      rw [h2]
      exact ⟨fun t ht => absurd ht (Nat.not_lt_zero t), by simp, by simp⟩
  · exact List.getLast?_concat _

/-- A diff can only be empty when the two paragraph lists coincide. -/
theorem diff_empty_eq (o n : List String)
    (h : diff_paragraphs o n = emptyChange) : o = n := by
  obtain ⟨hch, hmem, hlast⟩ := gmb_spec o n
  have hops := diff_empty_all_equal o n h
  have hdrop := allEqual_drop o n (get_matching_blocks o n) 0 0 hch hmem hlast
    (fun op hop => hops op hop)
  simpa using hdrop

/-- `diff_paragraphs` returns the empty record exactly on identical
inputs. -/
theorem diff_empty_iff (o n : List String) :
    diff_paragraphs o n = emptyChange ↔ o = n :=
  ⟨diff_empty_eq o n, fun h => by rw [h]; exact diff_paragraphs_identity n⟩

/-! ### Section-key sets -/

theorem alAppend_keys_mem (k para x : String) : ∀ (m : SectionMap),
    (x ∈ (alAppend m k para).map Prod.fst ↔ x ∈ m.map Prod.fst ∨ x = k) := by
  intro m
  induction m with
  | nil =>
    rw [alAppend]
    simp
  | cons pr rest ih =>
    rw [alAppend]
    by_cases h : pr.1 = k
    · rw [if_pos h]
      simp only [List.map_cons, List.mem_cons]
      constructor
      · intro hx
        exact Or.inl hx
      · rintro ((hx | hx) | hx)
        · exact Or.inl hx
        · exact Or.inr hx
        · rw [hx, ← h]
          exact Or.inl rfl
    · rw [if_neg h]
      simp only [List.map_cons, List.mem_cons]
      rw [ih]
      tauto

theorem alAppend_keys_nodup (k para : String) : ∀ (m : SectionMap),
    (m.map Prod.fst).Nodup → ((alAppend m k para).map Prod.fst).Nodup := by
  intro m
  induction m with
  | nil =>
    intro _
    rw [alAppend]
    simp
  | cons pr rest ih =>
    intro h
    rw [List.map_cons, List.nodup_cons] at h
    rw [alAppend]
    by_cases hk : pr.1 = k
    · rw [if_pos hk]
      rw [List.map_cons, List.nodup_cons]
      exact h
    · rw [if_neg hk]
      rw [List.map_cons, List.nodup_cons]
      refine ⟨?_, ih h.2⟩
      intro hmem
      rcases (alAppend_keys_mem k para pr.1 rest).mp hmem with h1 | h1
      · exact h.1 h1
      · exact hk h1

theorem alEnsure_keys_mem (k x : String) : ∀ (m : SectionMap),
    (x ∈ (alEnsure m k).map Prod.fst ↔ x ∈ m.map Prod.fst ∨ x = k) := by
  intro m
  induction m with
  | nil =>
    rw [alEnsure]
    simp
  | cons pr rest ih =>
    rw [alEnsure]
    by_cases h : pr.1 = k
    · rw [if_pos h]
      simp only [List.map_cons, List.mem_cons]
      constructor
      · intro hx
        exact Or.inl hx
      · rintro ((hx | hx) | hx)
        · exact Or.inl hx
        · exact Or.inr hx
        · rw [hx, ← h]
          exact Or.inl rfl
    · rw [if_neg h]
      simp only [List.map_cons, List.mem_cons]
      rw [ih]
      tauto

theorem alEnsure_keys_nodup (k : String) : ∀ (m : SectionMap),
    (m.map Prod.fst).Nodup → ((alEnsure m k).map Prod.fst).Nodup := by
  intro m
  induction m with
  | nil =>
    intro _
    rw [alEnsure]
    simp
  | cons pr rest ih =>
    intro h
    rw [List.map_cons, List.nodup_cons] at h
    rw [alEnsure]
    by_cases hk : pr.1 = k
    · rw [if_pos hk]
      rw [List.map_cons, List.nodup_cons]
      exact h
    · rw [if_neg hk]
      rw [List.map_cons, List.nodup_cons]
      refine ⟨?_, ih h.2⟩
      intro hmem
      rcases (alEnsure_keys_mem k pr.1 rest).mp hmem with h1 | h1
      · exact h.1 h1
      · exact hk h1

theorem flushBuf_keys_nodup (st : SState)
    (h : (st.sections.map Prod.fst).Nodup) :
    (((flushBuf st).sections).map Prod.fst).Nodup := by
  rw [flushBuf]
  by_cases hp : pyStripS (joinNL st.buf) = ""
  · simp only [if_pos hp]
    exact h
  · simp only [if_neg hp]
    exact alAppend_keys_nodup st.cur _ st.sections h

theorem procLine_keys_nodup (st : SState) (line : String)
    (h : (st.sections.map Prod.fst).Nodup) :
    (((procLine st line).sections).map Prod.fst).Nodup := by
  rw [procLine]
  cases hm : matchHeader line with
  | some kr =>
    obtain ⟨key, rest⟩ := kr
    exact alEnsure_keys_nodup key _ (flushBuf_keys_nodup st h)
  | none =>
    by_cases hs : pyStripS line = ""
    · rw [if_pos hs]
      exact flushBuf_keys_nodup st h
    · rw [if_neg hs]
      exact h

theorem foldl_procLine_keys_nodup : ∀ (lines : List String) (st : SState),
    (st.sections.map Prod.fst).Nodup →
    (((lines.foldl procLine st).sections).map Prod.fst).Nodup := by
  intro lines
  induction lines with
  | nil =>
    intro st h
    exact h
  | cons l rest ih =>
    intro st h
    rw [List.foldl_cons]
    exact ih _ (procLine_keys_nodup st l h)

/-- The section keys produced by the parser are pairwise distinct. -/
theorem split_keys_nodup (A : String) :
    ((split_into_sections A).map Prod.fst).Nodup := by
  rw [split_into_sections, splitSectionsLines]
  exact flushBuf_keys_nodup _
    (foldl_procLine_keys_nodup _ ⟨[], "0", []⟩ List.nodup_nil)

theorem unionKeys_mem (k1 k2 : List String) (x : String) :
    x ∈ unionKeys k1 k2 ↔ x ∈ k1 ∨ x ∈ k2 := by
  rw [unionKeys, List.mem_append, List.mem_filter]
  constructor
  · rintro (h | ⟨h, _⟩)
    · exact Or.inl h
    · exact Or.inr h
  · rintro (h | h)
    · exact Or.inl h
    · by_cases hk : x ∈ k1
      · exact Or.inl hk
      · refine Or.inr ⟨h, ?_⟩
        simp [hk]

theorem unionKeys_nodup (k1 k2 : List String) (h1 : k1.Nodup)
    (h2 : k2.Nodup) : (unionKeys k1 k2).Nodup := by
  rw [unionKeys]
  refine h1.append (h2.filter _) ?_
  intro x hx1 hx2
  rw [List.mem_filter] at hx2
  have := hx2.2
  simp at this
  exact this hx1

/-- Claim C7 (amended): the two directions agree on the SET of section
keys — the key sequences of `detect_paragraph_section_changes (A, B)` and
`(B, A)` are permutations of each other (ties of the integer-segment sort
key may break differently, so equality of sequences is not guaranteed) —
and a section's diff is empty in one direction exactly when it is empty in
the other.  The per-record swap symmetry holds in the one-sided case:
against an empty side, every paragraph is reported as Added in one
direction and as Removed, with the same enumeration, in the other.  (Full
record symmetry fails in general; see the counterexample.) -/
theorem claim_C7_amended (A B : String) :
    ((detect_paragraph_section_changes A B).map Prod.fst).Perm
      ((detect_paragraph_section_changes B A).map Prod.fst) ∧
    (∀ p ∈ detect_paragraph_section_changes A B,
      ∀ q ∈ detect_paragraph_section_changes B A,
        p.1 = q.1 → (p.2 = emptyChange ↔ q.2 = emptyChange)) ∧
    (∀ l : List String,
      diff_paragraphs [] l = ⟨enumSlice l 0 l.length, [], []⟩ ∧
      diff_paragraphs l [] = ⟨[], enumSlice l 0 l.length, []⟩) := by
  have hkeys : ∀ X Y : String,
      (detect_paragraph_section_changes X Y).map Prod.fst =
        sortKeys (unionKeys ((split_into_sections X).map Prod.fst)
          ((split_into_sections Y).map Prod.fst)) := by
    intro X Y
    rw [detect_paragraph_section_changes, List.map_map]
    exact List.map_id _
  refine ⟨?_, ?_, ?_⟩
  · rw [hkeys A B, hkeys B A]
    have hU : (unionKeys ((split_into_sections A).map Prod.fst)
        ((split_into_sections B).map Prod.fst)).Perm
        (unionKeys ((split_into_sections B).map Prod.fst)
          ((split_into_sections A).map Prod.fst)) := by
      refine (List.perm_ext_iff_of_nodup
        (unionKeys_nodup _ _ (split_keys_nodup A) (split_keys_nodup B))
        (unionKeys_nodup _ _ (split_keys_nodup B) (split_keys_nodup A))).mpr ?_
      intro x
      rw [unionKeys_mem, unionKeys_mem]
      exact Or.comm
    exact ((insSort_perm keyLe _).trans hU).trans (insSort_perm keyLe _).symm
  · intro p hp q hq hpq
    rw [detect_paragraph_section_changes, List.mem_map] at hp hq
    obtain ⟨s1, _, hp1⟩ := hp
    obtain ⟨s2, _, hq1⟩ := hq
    have hp2 : p.2 = diff_paragraphs (alGetD (split_into_sections A) s1)
        (alGetD (split_into_sections B) s1) := by rw [← hp1]
    have hq2 : q.2 = diff_paragraphs (alGetD (split_into_sections B) s2)
        (alGetD (split_into_sections A) s2) := by rw [← hq1]
    have hs : s1 = s2 := by
      have e1 : p.1 = s1 := by rw [← hp1]
      have e2 : q.1 = s2 := by rw [← hq1]
      rw [← e1, ← e2, hpq]
    rw [hp2, hq2, ← hs]
    rw [diff_empty_iff, diff_empty_iff]
    exact eq_comm
  · intro l
    exact ⟨diff_nil_left l, diff_nil_right l⟩

/-- Witness for the amended C7 at a concrete pair: the one-sided swap at
`["x"]` and the empty-iff-empty correspondence for section `1` of the
documents `"1 x"` and `""`. -/
theorem claim_C7_amended_witness :
    diff_paragraphs [] ["x"] = ⟨[(0, "x")], [], []⟩ ∧
    diff_paragraphs ["x"] [] = ⟨[], [(0, "x")], []⟩ ∧
    (diff_paragraphs ["x"] [] = emptyChange ↔
      diff_paragraphs [] ["x"] = emptyChange) := by
  have h := claim_C7_amended "1 x" ""
  have h1 := h.2.2 ["x"]
  have h2 := h.2.1 ("1", diff_paragraphs ["x"] []) (by decide)
    ("1", diff_paragraphs [] ["x"]) (by decide) rfl
  exact ⟨by rw [h1.1]; rfl, by rw [h1.2]; rfl, h2⟩

end RegDoc
